import Mathlib

/-!
Verification development for the excalibur SDF text plugin (`src/main.ts`).

Shallow embedding of the parts of the code the specification talks about:

* JS string iteration (`for (const c of s)`), which walks a UTF-16 code-unit
  sequence by Unicode code point, pairing surrogate halves;
* JS `Map` set/get semantics, as association lists;
* the `SDFFont` constructor: derived size parameters, the glyph table, the
  shelf-packing loop that lays the glyph bitmaps out in the atlas canvas
  (given explicit fuel, because the outer `for` loop of the source has no
  structural termination measure), and the `putImageData` /
  `_makeRGBAImageData` pixel semantics of the atlas canvas;
* the `SDFTextRenderer` batching state machine (`draw` / `flush` /
  `_addImageAsTexture` / `_isFull`), with the purely numeric per-vertex
  geometry (positions, UVs, colors — floating-point data that no claim
  inspects) abstracted away while keeping the vertex cursor, quad count,
  texture bookkeeping and the per-quad texture index / shading parameters.
-/

namespace SDFText

/-- A JS string: a list of UTF-16 code units. -/
abbrev JSStr := List Nat

/-- The glyph tables of `SDFFont` are keyed by (single code point) strings. -/
abbrev GlyphKey := JSStr

def isHighSurrogate (c : Nat) : Bool := 0xD800 ≤ c && c ≤ 0xDBFF

def isLowSurrogate (c : Nat) : Bool := 0xDC00 ≤ c && c ≤ 0xDFFF

/-- JS string iteration protocol (`s[Symbol.iterator]()`, used by
`for (const codePoint of alphabet)` in the `SDFFont` constructor and by
`for (const char of text)` in `SDFTextRenderer.draw`): yields one string per
Unicode code point, combining a high surrogate followed by a low surrogate
into a single two-unit string. -/
def jsCodePoints : JSStr → List JSStr
  | [] => []
  | [c] => [[c]]
  | c1 :: c2 :: rest =>
    if isHighSurrogate c1 && isLowSurrogate c2 then
      [c1, c2] :: jsCodePoints rest
    else
      [c1] :: jsCodePoints (c2 :: rest)

/-- JS `Map.prototype.set`: update in place if the key is present (keeping
insertion order), otherwise append. -/
def mset {κ α : Type} [DecidableEq κ] (m : List (κ × α)) (k : κ) (v : α) : List (κ × α) :=
  match m with
  | [] => [(k, v)]
  | (k0, v0) :: rest => if k0 = k then (k0, v) :: rest else (k0, v0) :: mset rest k v

/-- JS `Map.prototype.get` (as an `Option`). -/
def mget {κ α : Type} [DecidableEq κ] (m : List (κ × α)) (k : κ) : Option α :=
  match m with
  | [] => none
  | (k0, v0) :: rest => if k0 = k then some v0 else mget rest k

/-- The record returned by `TinySDF.draw` (interface `SDFGlyph` in the
source): a single-channel distance bitmap plus glyph metrics. -/
structure SDFGlyph where
  data : List Nat
  width : Nat
  height : Nat
  glyphWidth : Nat
  glyphHeight : Nat
  glyphTop : Nat
  glyphLeft : Nat
  glyphAdvance : Nat
  deriving DecidableEq, Repr

/-- Stand-in for the non-null assertion `this.glyphs.get(codePoint)!`. -/
def defaultGlyph : SDFGlyph := ⟨[], 0, 0, 0, 0, 0, 0, 0⟩

abbrev GlyphMap := List (GlyphKey × SDFGlyph)

abbrev LocMap := List (GlyphKey × (Nat × Nat))

/-- The options record passed to the `SDFFont` constructor.  The fields that
only feed the external TinySDF rasterizer (`fontFile`, `fontWeight`,
`fontStyle`, `color`) do not influence anything the claims mention, because
the rasterizer itself is a parameter of the embedding. -/
structure SDFFontOptions where
  fontSize : Option Nat
  alphabet : Option JSStr
  deriving DecidableEq, Repr

/-- The module-level demo constant `const fontSize = 100` (line 699 of
`src/main.ts`).  Inside the `SDFFont` constructor the bare identifier
`fontSize` is not declared locally, so it resolves to this module-level
binding — not to `options.fontSize` and not to `this._fontSize`. -/
def demoFontSize : Nat := 100

/-- Ceiling division, `Math.ceil(a / b)` for naturals. -/
def ceilDiv (a b : Nat) : Nat := (a + b - 1) / b

/-- Integer ceiling square root, `Math.ceil(Math.sqrt n)`: the least `k`
with `n ≤ k * k` (exact — the
alphabet lengths involved are far below any double-precision rounding
trouble). -/
def ceilSqrt (n : Nat) : Nat :=
  ((List.range (n + 1)).find? (fun k => n ≤ k * k)).getD n

/-- The default alphabet string
`'🎶🎉🎂❤️◑﹏◐ abcdefghijklmnopqrstuvwxyz~!@#$%^&*()<>?\'":;ABCDEFGHIJKLMNOPQRSTUVWXYZ1234567890{}\\|'`
as UTF-16 code units. -/
def defaultAlphabet : JSStr :=
  [0xD83C, 0xDFB6, 0xD83C, 0xDF89, 0xD83C, 0xDF82, 0x2764, 0xFE0F,
   0x25D1, 0xFE4F, 0x25D0, 32] ++
  (List.range 26).map (97 + ·) ++
  [126, 33, 64, 35, 36, 37, 94, 38, 42, 40, 41, 60, 62, 63, 39, 34, 58, 59] ++
  (List.range 26).map (65 + ·) ++
  [49, 50, 51, 52, 53, 54, 55, 56, 57, 48, 123, 125, 92, 124]

/-- The derived parameters computed at the top of the `SDFFont` constructor.
`fontSizeField` is `this._fontSize = options.fontSize ?? 16`; `buffer`,
`radius`, `size` and `dimension` are computed from the bare `fontSize`
identifier, which resolves to `demoFontSize` (see there), and `dimension`
uses `alphabet.length`, the UTF-16 code-unit count. -/
structure FontParams where
  fontSizeField : Nat
  buffer : Nat
  radius : Nat
  size : Nat
  dimension : Nat
  deriving DecidableEq, Repr

def mkFontParams (opts : SDFFontOptions) : FontParams :=
  let fontSizeField := opts.fontSize.getD 16
  let alphabet := opts.alphabet.getD defaultAlphabet
  let buffer := ceilDiv demoFontSize 8
  let radius := ceilDiv demoFontSize 3
  let size := demoFontSize + buffer * 2
  let dimension := ceilSqrt alphabet.length * size
  ⟨fontSizeField, buffer, radius, size, dimension⟩

/-- The glyph table `this.glyphs`: one `TinySDF.draw` result per iterated
code point of the alphabet. -/
def buildGlyphs (alphabet : JSStr) (tinyDraw : GlyphKey → SDFGlyph) : GlyphMap :=
  (jsCodePoints alphabet).foldl (fun m cp => mset m cp (tinyDraw cp)) []

/-- One `putImageData` call recorded by the packing loop: code point, atlas
origin, and the glyph that was fetched from the glyph table. -/
structure Placement where
  cp : GlyphKey
  x : Nat
  y : Nat
  glyph : SDFGlyph
  deriving DecidableEq, Repr

/-- Result of one execution of the inner `for (let x = 0; ...)` loop. -/
structure RowResult where
  cs : Nat
  maxH : Nat
  rem : List GlyphKey
  placed : List Placement
  deriving DecidableEq, Repr

/-- The inner column loop of the packing code:

`for (let x = 0; x + currentSize <= W && !done; x += currentSize) { ... }`

`cs` is `currentSize` (the width of the most recently placed glyph — note the
guard is evaluated with the *previous* glyph's width, while the cursor step
uses the width of the glyph just placed). -/
def packRow (glyphs : GlyphMap) (W y : Nat) : Nat → Nat → Nat → List GlyphKey → RowResult
  | _x, cs, maxH, [] => ⟨cs, maxH, [], []⟩
  | x, cs, maxH, cp :: rest =>
    if x + cs ≤ W then
      let g := (mget glyphs cp).getD defaultGlyph
      let r := packRow glyphs W y (x + g.width) g.width (max maxH g.height) rest
      ⟨r.cs, r.maxH, r.rem, ⟨cp, x, y, g⟩ :: r.placed⟩
    else
      ⟨cs, maxH, cp :: rest, []⟩

/-- The outer row loop of the packing code:

`for (let y = 0; y + maxHeight <= H && !done; y += maxHeight) { maxHeight = 0; ... }`

`fuel` bounds the number of outer iterations; `none` means the fuel ran out
while the loop guard still held (the source loop would still be running). -/
def packLoop (glyphs : GlyphMap) (W H : Nat) :
    Nat → Nat → Nat → Nat → List GlyphKey → Option (List Placement × List GlyphKey)
  | 0, y, maxH, _cs, rem =>
    if y + maxH ≤ H ∧ rem ≠ [] then none else some ([], rem)
  | fuel + 1, y, maxH, cs, rem =>
    if y + maxH ≤ H ∧ rem ≠ [] then
      let r := packRow glyphs W y 0 cs 0 rem
      match packLoop glyphs W H fuel (y + r.maxH) r.maxH r.cs r.rem with
      | none => none
      | some (ps, rem') => some (r.placed ++ ps, rem')
    else some ([], rem)

/-- The whole packing phase of the constructor (initial `currentSize = 0`,
`maxHeight = 0`, `y = 0`). -/
def pack (glyphs : GlyphMap) (W H fuel : Nat) (cps : List GlyphKey) :
    Option (List Placement × List GlyphKey) :=
  packLoop glyphs W H fuel 0 0 0 cps

/-- One RGBA pixel (r, g, b, a). -/
abbrev Pix := Nat × Nat × Nat × Nat

/-- The atlas canvas pixel grid. -/
abbrev Canvas := Nat → Nat → Pix

/-- A fresh canvas is transparent black. -/
def blankCanvas : Canvas := fun _ _ => (0, 0, 0, 0)

/-- Pixel `idx` of `_makeRGBAImageData(data, w, h)`: the loop writes
`R = G = B = data[i], A = 255` for `i < data.length`; any remaining pixels of
the `ImageData` keep their zero initialisation. -/
def rgbaAt (data : List Nat) (idx : Nat) : Pix :=
  if idx < data.length then (data.getD idx 0, data.getD idx 0, data.getD idx 0, 255)
  else (0, 0, 0, 0)

/-- Semantics of `putImageData(imageData, x, y)` for one recorded
placement: overwrite the
rectangle `[x, x+width) × [y, y+height)`, clipped to the canvas bounds. -/
def putGlyph (W H : Nat) (c : Canvas) (p : Placement) : Canvas :=
  fun u v =>
    if p.x ≤ u ∧ u < p.x + p.glyph.width ∧ p.y ≤ v ∧ v < p.y + p.glyph.height ∧
        u < W ∧ v < H then
      rgbaAt p.glyph.data ((v - p.y) * p.glyph.width + (u - p.x))
    else c u v

/-- The atlas canvas after the packing loop's sequence of `putImageData`
calls. -/
def renderAtlas (W H : Nat) (ps : List Placement) : Canvas :=
  ps.foldl (putGlyph W H) blankCanvas

/-- The table `this.glyphAtlasLocation` after the packing loop's sequence
of `set` calls. -/
def locMap (ps : List Placement) : LocMap :=
  ps.foldl (fun m p => mset m p.cp (p.x, p.y)) []

/-- The observable state of a constructed `SDFFont`.  `rem` is the list of
alphabet code points the packing loop never placed (the source records no
error for them: they are simply missing from `glyphAtlasLocation`). -/
structure SDFFontModel where
  params : FontParams
  glyphs : GlyphMap
  placements : List Placement
  glyphAtlasLocation : LocMap
  atlas : Canvas
  rem : List GlyphKey

/-- The `SDFFont` constructor.  `tinyDraw` is the external TinySDF rasterizer
(`this.__tinySdf.draw`), `fuel` bounds the packing loop's outer iterations;
`none` means the constructor is still inside the packing loop after `fuel`
rows (the source would still be looping).  No error of any kind is produced
by the packing phase in the source: the only `throw` sites of the
constructor concern canvas/context creation, before any glyph work. -/
def buildSDFFont (fuel : Nat) (opts : SDFFontOptions) (tinyDraw : GlyphKey → SDFGlyph) :
    Option SDFFontModel :=
  let params := mkFontParams opts
  let alphabet := opts.alphabet.getD defaultAlphabet
  let glyphs := buildGlyphs alphabet tinyDraw
  let cps := jsCodePoints alphabet
  match pack glyphs params.dimension params.dimension fuel cps with
  | none => none
  | some (ps, rem) =>
    some { params, glyphs, placements := ps,
           glyphAtlasLocation := locMap ps,
           atlas := renderAtlas params.dimension params.dimension ps,
           rem }

/-- Model of the IEEE doubles the renderer uses as SDF shading parameters.
The code only ever compares them for equality and forwards them to shader
uniforms, and the only expressions that produce them are `2 * 1.4142 /
fontSize` and the literal `0.75`, so they are modelled symbolically as exact
fractions (numerator, denominator); structural equality agrees with double
equality on this family of values (`2 * 1.4142 / s1 == 2 * 1.4142 / s2` iff
`s1 == s2`). -/
structure FP where
  num : Nat
  den : Nat
  deriving DecidableEq, Repr

/-- The getter `font.gamma = 2 * 1.4142 / this._fontSize`. -/
def fontGamma (fontSizeField : Nat) : FP := ⟨28284, 10000 * fontSizeField⟩

/-- The getter `font.halo = 0.75`. -/
def fontHalo : FP := ⟨75, 100⟩

/-- What `SDFTextRenderer.draw` reads from its `font` argument: the atlas
canvas (an image, identified by a number), the shading parameters, and the
two glyph tables.  `image` identifies `font.atlasCanvas`; the engine's
`textureLoader.load` caches per image, so the WebGL texture of an image is
modelled as the image id itself. -/
structure RFont where
  image : Nat
  gamma : FP
  halo : FP
  glyphs : GlyphMap
  glyphAtlasLocation : LocMap
  deriving DecidableEq, Repr

/-- The renderer font view of a constructed `SDFFont`. -/
def mkRFont (image : Nat) (f : SDFFontModel) : RFont :=
  ⟨image, fontGamma f.params.fontSizeField, fontHalo, f.glyphs, f.glyphAtlasLocation⟩

/-- One buffered quad, as far as the claims observe it: the `a_textureIndex`
vertex component, the atlas image it samples, and the shading parameters in
effect when it was emitted. -/
structure Quad where
  textureId : Int
  img : Nat
  gamma : FP
  halo : FP
  deriving DecidableEq, Repr

/-- One `flush` submission: the buffered quads, the texture list bound by
`_bindTextures`, and the `u_gamma` / `u_buffer` uniforms pushed for it. -/
structure Batch where
  quads : List Quad
  textures : List Nat
  gamma : FP
  halo : FP
  deriving DecidableEq, Repr

/-- The mutable state of `SDFTextRenderer`.  `flushed` is the history of GPU
submissions (write-only: it records what each `flush` bound and drew). -/
structure RState where
  maxImages : Nat
  maxTextures : Nat
  imageCount : Nat
  vertexIndex : Nat
  textures : List Nat
  textureIndex : Nat
  textureToIndex : List (Nat × Nat)
  images : List Nat
  sdfGamma : FP
  sdfHalo : FP
  pending : List Quad
  flushed : List Batch
  deriving DecidableEq, Repr

/-- The renderer state right after `initialize` (`maxTextures` is
`min(gl.MAX_TEXTURE_IMAGE_UNITS, getMaxShaderComplexity(...))`, fixed for
the renderer's lifetime; `_maxImages = 10922`). -/
def initState (maxTextures : Nat) : RState :=
  { maxImages := 10922, maxTextures, imageCount := 0, vertexIndex := 0,
    textures := [], textureIndex := 0, textureToIndex := [], images := [],
    sdfGamma := fontGamma 16, sdfHalo := ⟨75, 100⟩, pending := [], flushed := [] }

/-- The capacity test `_isFull()`. -/
def isFull (s : RState) : Bool :=
  s.maxImages ≤ s.imageCount || s.maxTextures ≤ s.textures.length

/-- The method `flush()`: early-exit when `_imageCount === 0` (nothing is
cleared in that case), otherwise submit and reset every counter and table. -/
def flushR (s : RState) : RState :=
  if s.imageCount = 0 then s
  else
    { s with
      flushed := s.flushed ++ [⟨s.pending, s.textures, s.sdfGamma, s.sdfHalo⟩],
      imageCount := 0, vertexIndex := 0, textures := [], textureIndex := 0,
      textureToIndex := [], images := [], pending := [] }

/-- The method `_addImageAsTexture(image)`. -/
def addImageAsTexture (s : RState) (img : Nat) : RState :=
  if img ∈ s.images then s
  else if img ∈ s.textures then s
  else
    { s with
      textures := s.textures ++ [img],
      textureToIndex := mset s.textureToIndex img s.textureIndex,
      textureIndex := s.textureIndex + 1,
      images := s.images ++ [img] }

/-- The lookup `_getTextureIdForImage(image)` (`-1` when it misses). -/
def getTextureId (s : RState) (img : Nat) : Int :=
  match mget s.textureToIndex img with
  | some n => (n : Int)
  | none => -1

/-- One iteration of the `for (const char of text)` loop in `draw`: flush if
full, then emit one quad unless the glyph or its atlas location is missing.
`tid` is the texture index `draw` computed once, before the loop. -/
def processChar (font : RFont) (tid : Int) (s : RState) (cp : GlyphKey) : RState :=
  let s1 := if isFull s then flushR s else s
  match mget font.glyphs cp, mget font.glyphAtlasLocation cp with
  | some _, some _ =>
    { s1 with
      imageCount := s1.imageCount + 1,
      vertexIndex := s1.vertexIndex + 36,
      pending := s1.pending ++ [⟨tid, font.image, s1.sdfGamma, s1.sdfHalo⟩] }
  | _, _ => s1

/-- The shading-parameter step at the top of `draw`: flush and adopt the
font's gamma/halo when they differ from the batch's current pair. -/
def gammaStep (s : RState) (font : RFont) : RState :=
  if s.sdfGamma ≠ font.gamma ∨ s.sdfHalo ≠ font.halo then
    { flushR s with sdfGamma := font.gamma, sdfHalo := font.halo }
  else s

/-- The state after the three steps `draw` performs before its character
loop: flush if full, reconcile shading parameters, register the font's
atlas image. -/
def entryState (s : RState) (font : RFont) : RState :=
  addImageAsTexture (gammaStep (if isFull s then flushR s else s) font) font.image

/-- The method `SDFTextRenderer.draw(font, text, ...)`.  The texture index passed to
every quad is computed once, before the loop (`_getTextureIdForImage`). -/
def drawR (s : RState) (font : RFont) (text : JSStr) : RState :=
  (jsCodePoints text).foldl
    (processChar font (getTextureId (entryState s font) font.image))
    (entryState s font)

/-- A call against the renderer. -/
inductive RCmd where
  | draw (font : RFont) (text : JSStr)
  | flush
  deriving DecidableEq, Repr

def runCmds (s : RState) : List RCmd → RState
  | [] => s
  | RCmd.draw f t :: rest => runCmds (drawR s f t) rest
  | RCmd.flush :: rest => runCmds (flushR s) rest

/-- Total number of quads ever emitted and still accounted for: buffered ones
plus every quad in the submission history (a flush moves quads from
`pending` to `flushed`, it never discards one). -/
def totalQuads (s : RState) : Nat :=
  s.pending.length + (s.flushed.map (fun b => b.quads.length)).sum

/-! ### Association-map lemmas -/

theorem mget_mset_self {κ α : Type} [DecidableEq κ] (m : List (κ × α)) (k : κ) (v : α) :
    mget (mset m k v) k = some v := by
  induction m with
  | nil => simp [mset, mget]
  | cons kv rest ih =>
    obtain ⟨k0, v0⟩ := kv
    by_cases h : k0 = k
    · simp [mset, mget, h]
    · simp [mset, mget, h, ih]

theorem mget_mset_ne {κ α : Type} [DecidableEq κ] (m : List (κ × α)) (k k' : κ) (v : α)
    (h : k ≠ k') : mget (mset m k v) k' = mget m k' := by
  induction m with
  | nil => simp [mset, mget, h]
  | cons kv rest ih =>
    obtain ⟨k0, v0⟩ := kv
    by_cases h0 : k0 = k
    · subst h0
      simp [mset, mget, h]
    · simp [mset, mget, h0, ih]

theorem mget_foldl_mset {κ α : Type} [DecidableEq κ] (f : κ → α) (l : List κ)
    (m : List (κ × α)) (k : κ)
    (h : k ∈ l ∨ mget m k = some (f k)) :
    mget (l.foldl (fun m c => mset m c (f c)) m) k = some (f k) := by
  induction l generalizing m with
  | nil =>
    rcases h with h | h
    · cases h
    · simpa using h
  | cons c l ih =>
    simp only [List.foldl_cons]
    by_cases hc : c = k
    · subst hc
      exact ih _ (Or.inr (mget_mset_self m c (f c)))
    · rcases h with h | h
      · rcases List.mem_cons.mp h with h | h
        · exact absurd h.symm hc
        · exact ih _ (Or.inl h)
      · exact ih _ (Or.inr (by rw [mget_mset_ne _ _ _ _ hc]; exact h))

/-- Lookup through a left fold of `mset`s in terms of the *last* write for
the key. -/
theorem mget_foldl_mset_find {κ β α : Type} [DecidableEq κ]
    (key : β → κ) (val : β → α) (ps : List β) (m : List (κ × α)) (k : κ) :
    mget (ps.foldl (fun m p => mset m (key p) (val p)) m) k =
      match ps.reverse.find? (fun p => key p = k) with
      | some p => some (val p)
      | none => mget m k := by
  induction ps generalizing m with
  | nil => simp
  | cons p tl ih =>
    simp only [List.foldl_cons, List.reverse_cons]
    rw [ih]
    rcases hfind : tl.reverse.find? (fun p => key p = k) with _ | q
    · rw [List.find?_append, hfind]
      simp only [Option.none_or]
      by_cases hk : key p = k
      · subst hk
        simp [List.find?, mget_mset_self]
      · simp [List.find?, hk, mget_mset_ne _ _ _ _ hk]
    · rw [List.find?_append, hfind]
      simp

/-- Membership of an alphabet code point in the glyph table built by the
constructor's first loop. -/
theorem mget_buildGlyphs (alphabet : JSStr) (td : GlyphKey → SDFGlyph) (k : GlyphKey)
    (hk : k ∈ jsCodePoints alphabet) :
    mget (buildGlyphs alphabet td) k = some (td k) :=
  mget_foldl_mset td (jsCodePoints alphabet) [] k (Or.inl hk)

/-! ### C4: iteration granularity of the glyph tables -/

/-- C4 counterexample: for a font whose alphabet is the single extended
grapheme ❤️ (U+2764 U+FE0F), the glyph table does *not* hold one entry keyed
by that grapheme — construction iterates `for (const codePoint of alphabet)`
by Unicode code point, so the table holds two entries, one for U+2764 and one
for U+FE0F. -/
theorem grapheme_single_key_false :
    (buildSDFFont 9 ⟨some 16, some [0x2764, 0xFE0F]⟩ (fun _ => defaultGlyph)).map
        (fun F => mget F.glyphs [0x2764, 0xFE0F]) = some none ∧
      (buildGlyphs [0x2764, 0xFE0F] (fun _ => defaultGlyph)).length = 2 ∧
      mget (buildGlyphs [0x2764, 0xFE0F] (fun _ => defaultGlyph)) [0x2764] =
        some defaultGlyph := by
  decide

/-- C4 (amended): alphabet iteration at construction and text iteration at
draw both proceed by Unicode *code point*: every code point of the alphabet
is stored under its own key and the identical draw-time iteration finds it
(so surrogate-pair characters such as 🎉 round-trip as one key), and a high
surrogate followed by a low surrogate is consumed as one code point. -/
theorem code_point_iteration_round_trip (alphabet text : JSStr) (td : GlyphKey → SDFGlyph)
    (k : GlyphKey) (hk : k ∈ jsCodePoints alphabet) :
    mget (buildGlyphs alphabet td) k = some (td k) ∧
      (k ∈ jsCodePoints text →
        ∃ g, mget (buildGlyphs alphabet td) k = some g ∧ g = td k) ∧
      (∀ hi lo rest, isHighSurrogate hi → isLowSurrogate lo →
        jsCodePoints (hi :: lo :: rest) = [hi, lo] :: jsCodePoints rest) := by
  refine ⟨mget_buildGlyphs alphabet td k hk, fun _ => ⟨td k, mget_buildGlyphs alphabet td k hk, rfl⟩, ?_⟩
  intro hi lo rest hhi hlo
  simp [jsCodePoints, hhi, hlo]

/-- C4 witness: the surrogate-pair emoji 🎉 (U+1F389, units D83C DF89) in
alphabet `"🎉a"` and text `"🎉"`. -/
theorem code_point_iteration_round_trip_witness :
    [0xD83C, 0xDF89] ∈ jsCodePoints [0xD83C, 0xDF89, 97] ∧
      (mget (buildGlyphs [0xD83C, 0xDF89, 97] (fun _ => defaultGlyph)) [0xD83C, 0xDF89] =
          some ((fun _ => defaultGlyph) [0xD83C, 0xDF89]) ∧
        ([0xD83C, 0xDF89] ∈ jsCodePoints [0xD83C, 0xDF89] →
          ∃ g, mget (buildGlyphs [0xD83C, 0xDF89, 97] (fun _ => defaultGlyph))
              [0xD83C, 0xDF89] = some g ∧ g = (fun _ => defaultGlyph) [0xD83C, 0xDF89]) ∧
        (∀ hi lo rest, isHighSurrogate hi → isLowSurrogate lo →
          jsCodePoints (hi :: lo :: rest) = [hi, lo] :: jsCodePoints rest)) :=
  ⟨by decide,
   code_point_iteration_round_trip [0xD83C, 0xDF89, 97] [0xD83C, 0xDF89]
     (fun _ => defaultGlyph) [0xD83C, 0xDF89] (by decide)⟩

/-! ### Decomposing a successful construction -/

theorem buildSDFFont_some {fuel : Nat} {opts : SDFFontOptions} {td : GlyphKey → SDFGlyph}
    {F : SDFFontModel} (h : buildSDFFont fuel opts td = some F) :
    F.params = mkFontParams opts ∧
      F.glyphs = buildGlyphs (opts.alphabet.getD defaultAlphabet) td ∧
      pack F.glyphs F.params.dimension F.params.dimension fuel
          (jsCodePoints (opts.alphabet.getD defaultAlphabet)) = some (F.placements, F.rem) ∧
      F.glyphAtlasLocation = locMap F.placements ∧
      F.atlas = renderAtlas F.params.dimension F.params.dimension F.placements := by
  simp only [buildSDFFont] at h
  split at h
  · exact absurd h (by simp)
  · rename_i ps rem hp
    obtain rfl : _ = F := Option.some.inj h
    exact ⟨rfl, rfl, hp, rfl, rfl⟩

theorem buildSDFFont_none {fuel : Nat} {opts : SDFFontOptions} {td : GlyphKey → SDFGlyph}
    (h : pack (buildGlyphs (opts.alphabet.getD defaultAlphabet) td)
        (mkFontParams opts).dimension (mkFontParams opts).dimension fuel
        (jsCodePoints (opts.alphabet.getD defaultAlphabet)) = none) :
    buildSDFFont fuel opts td = none := by
  simp only [buildSDFFont]
  split
  · rfl
  · rename_i ps rem hp
    rw [h] at hp
    exact absurd hp (by simp)

/-! ### C3: the derived font parameters -/

/-- C3 (code bug): inside the constructor the bare identifier `fontSize` is
not a local — it resolves to the module-level demo constant
`const fontSize = 100` — so `buffer`, `radius`, cell `size` and the atlas
`dimension` are computed from 100 regardless of `options.fontSize`, while
`this._fontSize` is `options.fontSize ?? 16`.  For a font constructed with
`fontSize: 16` the code yields buffer = 13, radius = 34, cell size = 126
(not `ceil(16/8) = 2`, `ceil(16/3) = 6`, `16 + 2·2 = 20` as the claim
states); the atlas side is `ceil(sqrt(alphabet.length)) · 126`, where
`alphabet.length` moreover counts UTF-16 code units, not glyphs. -/
theorem font_params_from_demo_constant :
    (∀ opts : SDFFontOptions,
      (mkFontParams opts).fontSizeField = opts.fontSize.getD 16 ∧
        (mkFontParams opts).buffer = 13 ∧
        (mkFontParams opts).radius = 34 ∧
        (mkFontParams opts).size = 126 ∧
        (mkFontParams opts).dimension =
          ceilSqrt (opts.alphabet.getD defaultAlphabet).length * 126) ∧
      (mkFontParams ⟨some 16, some [97, 98]⟩).buffer = 13 ∧
      ceilDiv 16 8 = 2 ∧
      (mkFontParams ⟨some 16, some [97, 98]⟩).radius = 34 ∧
      ceilDiv 16 3 = 6 ∧
      (mkFontParams ⟨some 16, some [97, 98]⟩).size = 126 ∧
      16 + 2 * 2 = 20 ∧
      jsCodePoints [0xD83C, 0xDF89, 0xD83C, 0xDF82, 97, 98] =
        [[0xD83C, 0xDF89], [0xD83C, 0xDF82], [97], [98]] ∧
      ceilSqrt ([0xD83C, 0xDF89, 0xD83C, 0xDF82, 97, 98] : JSStr).length = 3 ∧
      ceilSqrt 4 = 2 := by
  exact ⟨fun opts => ⟨rfl, rfl, rfl, rfl, rfl⟩, by decide, by decide, by decide, by decide,
    by decide, by decide, by decide, by decide, by decide⟩

/-! ### C2: overflow is silent -/

/-- Rasterizer making every bitmap 252 wide and 130 tall (the `GlyphRasterizer`
interface of the spec puts no bound on the returned bitmap size). -/
def overflowDraw : GlyphKey → SDFGlyph := fun _ => ⟨[], 252, 130, 0, 0, 0, 0, 0⟩

/-- C2 (code bug): for alphabet `"ab"` with 252×130 glyph bitmaps (the
computed atlas side is 252), construction terminates normally with glyph
`'b'` never placed — `glyphAtlasLocation` has no entry for it — and no error
is raised: the source contains no `AtlasOverflow` (or any other packing
check); the loop just exits, so neither disjunct of "all glyphs placed or an
error is raised" holds. -/
theorem atlas_overflow_silent :
    (buildSDFFont 9 ⟨some 16, some [97, 98]⟩ overflowDraw).isSome = true ∧
      (buildSDFFont 9 ⟨some 16, some [97, 98]⟩ overflowDraw).map
          (fun F => (F.rem, mget F.glyphAtlasLocation [98],
            mget F.glyphAtlasLocation [97], mget F.glyphs [98])) =
        some ([[98]], none, some (0, 0), some (overflowDraw [98])) := by
  constructor
  · decide
  · decide

/-! ### C10: the packing loop need not terminate -/

/-- Rasterizer whose first bitmap is wider than the whole atlas canvas. -/
def wideDraw : GlyphKey → SDFGlyph := fun cp =>
  if cp = [97] then ⟨[], 300, 10, 0, 0, 0, 0, 0⟩ else ⟨[], 1, 1, 0, 0, 0, 0, 0⟩

def wideGlyphs : GlyphMap := buildGlyphs [97, 98] wideDraw

theorem packLoop_wide_stuck (n : Nat) :
    packLoop wideGlyphs 252 252 n 10 0 300 [[98]] = none := by
  induction n with
  | zero => decide
  | succ n ih =>
    have h : packLoop wideGlyphs 252 252 (n + 1) 10 0 300 [[98]] =
        match packLoop wideGlyphs 252 252 n 10 0 300 [[98]] with
        | none => none
        | some (ps, rem') =>
          some ((packRow wideGlyphs 252 10 0 300 0 [[98]]).placed ++ ps, rem') := rfl
    rw [h, ih]

theorem packLoop_wide_second (n : Nat) :
    packLoop wideGlyphs 252 252 n 10 10 300 [[98]] = none := by
  cases n with
  | zero => decide
  | succ n =>
    have h : packLoop wideGlyphs 252 252 (n + 1) 10 10 300 [[98]] =
        match packLoop wideGlyphs 252 252 n 10 0 300 [[98]] with
        | none => none
        | some (ps, rem') =>
          some ((packRow wideGlyphs 252 10 0 300 0 [[98]]).placed ++ ps, rem') := rfl
    rw [h, packLoop_wide_stuck n]

/-- C10 (code bug): the packing loop does **not** terminate for every
alphabet: with alphabet `"ab"`, a 300×10 bitmap for `'a'` (wider than the
252-pixel canvas) and a 1×1 bitmap for `'b'`, after the first row the inner
guard `x + currentSize ≤ width` is already false at `x = 0` (currentSize is
300), so `maxHeight` stays 0, `y += maxHeight` no longer advances, the guard
`y + maxHeight ≤ height && !done` stays true, and the outer `for` loop spins
forever with `'b'` unplaced: no amount of fuel makes the constructor
return. -/
theorem packing_loop_diverges (fuel : Nat) :
    buildSDFFont fuel ⟨some 16, some [97, 98]⟩ wideDraw = none := by
  apply buildSDFFont_none
  cases fuel with
  | zero => decide
  | succ n =>
    have h : pack (buildGlyphs (((⟨some 16, some [97, 98]⟩ : SDFFontOptions)).alphabet.getD
          defaultAlphabet) wideDraw)
        (mkFontParams ⟨some 16, some [97, 98]⟩).dimension
        (mkFontParams ⟨some 16, some [97, 98]⟩).dimension (n + 1)
        (jsCodePoints (((⟨some 16, some [97, 98]⟩ : SDFFontOptions)).alphabet.getD
          defaultAlphabet)) =
        match packLoop wideGlyphs 252 252 n 10 10 300 [[98]] with
        | none => none
        | some (ps, rem') =>
          some ((packRow wideGlyphs 252 0 0 0 0 [[97], [98]]).placed ++ ps, rem') := rfl
    rw [h, packLoop_wide_second n]

/-! ### C1 counterexample: containment fails for mixed widths -/

/-- Rasterizer with mixed widths: `'a'` is 2×2, `'b'` is 251×2. -/
def mixedDraw : GlyphKey → SDFGlyph := fun cp =>
  if cp = [97] then ⟨List.replicate 4 7, 2, 2, 0, 0, 0, 0, 0⟩
  else ⟨List.replicate 502 9, 251, 2, 0, 0, 0, 0, 0⟩

/-- C1 counterexample: with alphabet `"ab"` and mixed bitmap widths (2 and
251 on a 252-pixel canvas) the packing loop places **every** glyph (the
alphabet "fits": `rem = []`), yet `'b'` is placed at x = 2 with width 251,
and 2 + 251 = 253 exceeds the canvas side 252 — the placed rectangle is not
contained in the atlas bounds, refuting the claim for mixed-width
alphabets. -/
theorem atlas_containment_false :
    (buildSDFFont 9 ⟨some 16, some [97, 98]⟩ mixedDraw).map
        (fun F => (F.rem, mget F.glyphAtlasLocation [98], F.params.dimension,
          decide (∀ p ∈ F.placements,
            p.x + p.glyph.width ≤ F.params.dimension ∧
              p.y + p.glyph.height ≤ F.params.dimension))) =
      some ([], some (2, 0), 252, false) := by
  decide

/-! ### Geometry of placements -/

/-- Pixel `(u, v)` lies in the rectangle `[x, x+width) × [y, y+height)` of a
placement. -/
def inRect (p : Placement) (u v : Nat) : Prop :=
  p.x ≤ u ∧ u < p.x + p.glyph.width ∧ p.y ≤ v ∧ v < p.y + p.glyph.height

instance (p : Placement) (u v : Nat) : Decidable (inRect p u v) := by
  unfold inRect; infer_instance

/-- Separation of an earlier placement from a later one: strictly to its
left, or strictly above it. -/
def sep (p q : Placement) : Prop :=
  p.x + p.glyph.width ≤ q.x ∨ p.y + p.glyph.height ≤ q.y

theorem sep_disjoint {p q : Placement} (h : sep p q) (u v : Nat) :
    ¬(inRect p u v ∧ inRect q u v) := by
  rintro ⟨⟨_, hpu, _, hpv⟩, ⟨hqu, _, hqv, _⟩⟩
  rcases h with h | h
  · exact absurd (lt_of_lt_of_le hpu h) (not_lt.mpr hqu)
  · exact absurd (lt_of_lt_of_le hpv h) (not_lt.mpr hqv)

section PackRowLemmas

variable (glyphs : GlyphMap) (W y : Nat)

theorem packRow_maxH_le (rem : List GlyphKey) : ∀ x cs maxH : Nat,
    maxH ≤ (packRow glyphs W y x cs maxH rem).maxH := by
  induction rem with
  | nil => intro x cs maxH; exact le_refl _
  | cons cp rest ih =>
    intro x cs maxH
    rw [packRow]
    split
    · exact le_trans (le_max_left _ _) (ih _ _ _)
    · exact le_refl _

theorem packRow_placed_y (rem : List GlyphKey) : ∀ x cs maxH : Nat,
    ∀ p ∈ (packRow glyphs W y x cs maxH rem).placed, p.y = y := by
  induction rem with
  | nil => intro x cs maxH p hp; exact absurd hp (List.not_mem_nil p)
  | cons cp rest ih =>
    intro x cs maxH p hp
    rw [packRow] at hp
    split at hp
    · rcases List.mem_cons.mp hp with rfl | hp
      · rfl
      · exact ih _ _ _ p hp
    · exact absurd hp (List.not_mem_nil p)

theorem packRow_placed_x (rem : List GlyphKey) : ∀ x cs maxH : Nat,
    ∀ p ∈ (packRow glyphs W y x cs maxH rem).placed, x ≤ p.x := by
  induction rem with
  | nil => intro x cs maxH p hp; exact absurd hp (List.not_mem_nil p)
  | cons cp rest ih =>
    intro x cs maxH p hp
    rw [packRow] at hp
    split at hp
    · rcases List.mem_cons.mp hp with rfl | hp
      · exact le_refl _
      · exact le_trans (Nat.le_add_right x _) (ih _ _ _ p hp)
    · exact absurd hp (List.not_mem_nil p)

theorem packRow_placed_h (rem : List GlyphKey) : ∀ x cs maxH : Nat,
    ∀ p ∈ (packRow glyphs W y x cs maxH rem).placed,
      p.glyph.height ≤ (packRow glyphs W y x cs maxH rem).maxH := by
  induction rem with
  | nil => intro x cs maxH p hp; exact absurd hp (List.not_mem_nil p)
  | cons cp rest ih =>
    intro x cs maxH p hp
    rw [packRow] at hp
    rw [packRow]
    split at hp <;> rename_i hguard
    · rw [if_pos hguard]
      rcases List.mem_cons.mp hp with rfl | hp
      · exact le_trans (le_max_right _ _) (packRow_maxH_le glyphs W y rest _ _ _)
      · exact ih _ _ _ p hp
    · exact absurd hp (List.not_mem_nil p)

theorem packRow_pairwise_gap (rem : List GlyphKey) : ∀ x cs maxH : Nat,
    List.Pairwise (fun p q => p.x + p.glyph.width ≤ q.x)
      (packRow glyphs W y x cs maxH rem).placed := by
  induction rem with
  | nil => intro x cs maxH; exact List.Pairwise.nil
  | cons cp rest ih =>
    intro x cs maxH
    rw [packRow]
    split
    · exact List.Pairwise.cons
        (fun q hq => packRow_placed_x glyphs W y rest _ _ _ q hq) (ih _ _ _)
    · exact List.Pairwise.nil

theorem packRow_cps (rem : List GlyphKey) : ∀ x cs maxH : Nat,
    rem = (packRow glyphs W y x cs maxH rem).placed.map Placement.cp ++
      (packRow glyphs W y x cs maxH rem).rem := by
  induction rem with
  | nil => intro x cs maxH; rfl
  | cons cp rest ih =>
    intro x cs maxH
    rw [packRow]
    split
    · simpa using ih _ _ _
    · rfl

theorem packRow_glyph (rem : List GlyphKey) : ∀ x cs maxH : Nat,
    ∀ p ∈ (packRow glyphs W y x cs maxH rem).placed,
      p.glyph = (mget glyphs p.cp).getD defaultGlyph := by
  induction rem with
  | nil => intro x cs maxH p hp; exact absurd hp (List.not_mem_nil p)
  | cons cp rest ih =>
    intro x cs maxH p hp
    rw [packRow] at hp
    split at hp
    · rcases List.mem_cons.mp hp with rfl | hp
      · rfl
      · exact ih _ _ _ p hp
    · exact absurd hp (List.not_mem_nil p)

theorem packRow_cs_uniform (rem : List GlyphKey) (w : Nat) : ∀ x cs maxH : Nat,
    (∀ cp ∈ rem, ((mget glyphs cp).getD defaultGlyph).width = w) →
    (cs = w ∨ cs = 0) →
    ((packRow glyphs W y x cs maxH rem).cs = w ∨
      (packRow glyphs W y x cs maxH rem).cs = 0) := by
  induction rem with
  | nil => intro x cs maxH _ hcs; exact hcs
  | cons cp rest ih =>
    intro x cs maxH huni hcs
    rw [packRow]
    split
    · exact ih _ _ _ (fun c hc => huni c (List.mem_cons_of_mem cp hc))
        (Or.inl (huni cp (List.mem_cons_self cp rest)))
    · exact hcs

theorem packRow_contained (rem : List GlyphKey) (w : Nat) : ∀ x cs maxH : Nat,
    (∀ cp ∈ rem, ((mget glyphs cp).getD defaultGlyph).width = w) →
    w ≤ W → (cs = w ∨ x = 0) →
    ∀ p ∈ (packRow glyphs W y x cs maxH rem).placed, p.x + p.glyph.width ≤ W := by
  induction rem with
  | nil => intro x cs maxH _ _ _ p hp; exact absurd hp (List.not_mem_nil p)
  | cons cp rest ih =>
    intro x cs maxH huni hw hcs p hp
    rw [packRow] at hp
    split at hp <;> rename_i hguard
    · rcases List.mem_cons.mp hp with rfl | hp
      · show x + ((mget glyphs cp).getD defaultGlyph).width ≤ W
        rw [huni cp (List.mem_cons_self cp rest)]
        rcases hcs with rfl | rfl
        · exact hguard
        · simpa using hw
      · exact ih _ _ _ (fun c hc => huni c (List.mem_cons_of_mem cp hc))
          hw (Or.inl (huni cp (List.mem_cons_self cp rest))) p hp
    · exact absurd hp (List.not_mem_nil p)

theorem packRow_maxH_ub (rem : List GlyphKey) (h : Nat) : ∀ x cs maxH : Nat,
    (∀ cp ∈ rem, ((mget glyphs cp).getD defaultGlyph).height = h) →
    (packRow glyphs W y x cs maxH rem).maxH ≤ max maxH h := by
  induction rem with
  | nil => intro x cs maxH _; exact le_max_left _ _
  | cons cp rest ih =>
    intro x cs maxH huni
    rw [packRow]
    split
    · refine le_trans (ih _ _ _ (fun c hc => huni c (List.mem_cons_of_mem cp hc))) ?_
      rw [huni cp (List.mem_cons_self cp rest)]
      rw [max_assoc, max_self]
    · exact le_max_left _ _

theorem packRow_nonempty (rem : List GlyphKey) (x cs maxH : Nat)
    (hrem : rem ≠ []) (hguard : x + cs ≤ W) :
    (packRow glyphs W y x cs maxH rem).placed ≠ [] := by
  cases rem with
  | nil => exact absurd rfl hrem
  | cons cp rest =>
    rw [packRow, if_pos hguard]
    simp

end PackRowLemmas

section PackLoopLemmas

variable (glyphs : GlyphMap) (W H : Nat)

theorem packLoop_y_ge (fuel : Nat) : ∀ (y maxH cs : Nat) (rem : List GlyphKey)
    (ps : List Placement) (rem' : List GlyphKey),
    packLoop glyphs W H fuel y maxH cs rem = some (ps, rem') → ∀ p ∈ ps, y ≤ p.y := by
  induction fuel with
  | zero =>
    intro y maxH cs rem ps rem' h p hp
    rw [packLoop] at h
    split at h
    · exact absurd h (by simp)
    · obtain ⟨rfl, rfl⟩ : ([] : List Placement) = ps ∧ rem = rem' := by
        simpa using h
      exact absurd hp (List.not_mem_nil p)
  | succ n ih =>
    intro y maxH cs rem ps rem' h p hp
    rw [packLoop] at h
    split at h
    · simp only [] at h
      split at h
      · exact absurd h (by simp)
      · rename_i ps2 rem2 hrec
        obtain ⟨rfl, rfl⟩ :
            (packRow glyphs W y 0 cs 0 rem).placed ++ ps2 = ps ∧ rem2 = rem' := by
          simpa using h
        rcases List.mem_append.mp hp with hp | hp
        · exact le_of_eq (packRow_placed_y glyphs W y rem 0 cs 0 p hp).symm
        · exact le_trans (Nat.le_add_right y _) (ih _ _ _ _ _ _ hrec p hp)
    · obtain ⟨rfl, rfl⟩ : ([] : List Placement) = ps ∧ rem = rem' := by
        simpa using h
      exact absurd hp (List.not_mem_nil p)

theorem packLoop_pairwise (fuel : Nat) : ∀ (y maxH cs : Nat) (rem : List GlyphKey)
    (ps : List Placement) (rem' : List GlyphKey),
    packLoop glyphs W H fuel y maxH cs rem = some (ps, rem') → List.Pairwise sep ps := by
  induction fuel with
  | zero =>
    intro y maxH cs rem ps rem' h
    rw [packLoop] at h
    split at h
    · exact absurd h (by simp)
    · obtain ⟨rfl, rfl⟩ : ([] : List Placement) = ps ∧ rem = rem' := by
        simpa using h
      exact List.Pairwise.nil
  | succ n ih =>
    intro y maxH cs rem ps rem' h
    rw [packLoop] at h
    split at h
    · simp only [] at h
      split at h
      · exact absurd h (by simp)
      · rename_i ps2 rem2 hrec
        obtain ⟨rfl, rfl⟩ :
            (packRow glyphs W y 0 cs 0 rem).placed ++ ps2 = ps ∧ rem2 = rem' := by
          simpa using h
        rw [List.pairwise_append]
        refine ⟨(packRow_pairwise_gap glyphs W y rem 0 cs 0).imp (fun h => Or.inl h),
          ih _ _ _ _ _ _ hrec, ?_⟩
        intro p hp q hq
        refine Or.inr ?_
        have h1 : p.y = y := packRow_placed_y glyphs W y rem 0 cs 0 p hp
        have h2 : p.glyph.height ≤ (packRow glyphs W y 0 cs 0 rem).maxH :=
          packRow_placed_h glyphs W y rem 0 cs 0 p hp
        have h3 : y + (packRow glyphs W y 0 cs 0 rem).maxH ≤ q.y :=
          packLoop_y_ge glyphs W H n _ _ _ _ _ _ hrec q hq
        rw [h1]
        exact le_trans (Nat.add_le_add_left h2 y) h3
    · obtain ⟨rfl, rfl⟩ : ([] : List Placement) = ps ∧ rem = rem' := by
        simpa using h
      exact List.Pairwise.nil

theorem packLoop_cps (fuel : Nat) : ∀ (y maxH cs : Nat) (rem : List GlyphKey)
    (ps : List Placement) (rem' : List GlyphKey),
    packLoop glyphs W H fuel y maxH cs rem = some (ps, rem') →
    rem = ps.map Placement.cp ++ rem' := by
  induction fuel with
  | zero =>
    intro y maxH cs rem ps rem' h
    rw [packLoop] at h
    split at h
    · exact absurd h (by simp)
    · obtain ⟨rfl, rfl⟩ : ([] : List Placement) = ps ∧ rem = rem' := by
        simpa using h
      rfl
  | succ n ih =>
    intro y maxH cs rem ps rem' h
    rw [packLoop] at h
    split at h
    · simp only [] at h
      split at h
      · exact absurd h (by simp)
      · rename_i ps2 rem2 hrec
        obtain ⟨rfl, rfl⟩ :
            (packRow glyphs W y 0 cs 0 rem).placed ++ ps2 = ps ∧ rem2 = rem' := by
          simpa using h
        have h1 := packRow_cps glyphs W y rem 0 cs 0
        have h2 := ih _ _ _ _ _ _ hrec
        rw [List.map_append, List.append_assoc, ← h2]
        exact h1
    · obtain ⟨rfl, rfl⟩ : ([] : List Placement) = ps ∧ rem = rem' := by
        simpa using h
      rfl

theorem packLoop_glyph (fuel : Nat) : ∀ (y maxH cs : Nat) (rem : List GlyphKey)
    (ps : List Placement) (rem' : List GlyphKey),
    packLoop glyphs W H fuel y maxH cs rem = some (ps, rem') →
    ∀ p ∈ ps, p.glyph = (mget glyphs p.cp).getD defaultGlyph := by
  induction fuel with
  | zero =>
    intro y maxH cs rem ps rem' h p hp
    rw [packLoop] at h
    split at h
    · exact absurd h (by simp)
    · obtain ⟨rfl, rfl⟩ : ([] : List Placement) = ps ∧ rem = rem' := by
        simpa using h
      exact absurd hp (List.not_mem_nil p)
  | succ n ih =>
    intro y maxH cs rem ps rem' h p hp
    rw [packLoop] at h
    split at h
    · simp only [] at h
      split at h
      · exact absurd h (by simp)
      · rename_i ps2 rem2 hrec
        obtain ⟨rfl, rfl⟩ :
            (packRow glyphs W y 0 cs 0 rem).placed ++ ps2 = ps ∧ rem2 = rem' := by
          simpa using h
        rcases List.mem_append.mp hp with hp | hp
        · exact packRow_glyph glyphs W y rem 0 cs 0 p hp
        · exact ih _ _ _ _ _ _ hrec p hp
    · obtain ⟨rfl, rfl⟩ : ([] : List Placement) = ps ∧ rem = rem' := by
        simpa using h
      exact absurd hp (List.not_mem_nil p)

theorem packLoop_contained (w hgt : Nat) (fuel : Nat) :
    ∀ (y maxH cs : Nat) (rem : List GlyphKey)
      (ps : List Placement) (rem' : List GlyphKey),
    (∀ cp ∈ rem, ((mget glyphs cp).getD defaultGlyph).width = w ∧
      ((mget glyphs cp).getD defaultGlyph).height = hgt) →
    w ≤ W → hgt ≤ H → (cs = w ∨ cs = 0) → (hgt ≤ maxH ∨ y + hgt ≤ H) →
    packLoop glyphs W H fuel y maxH cs rem = some (ps, rem') →
    ∀ p ∈ ps, p.x + p.glyph.width ≤ W ∧ p.y + p.glyph.height ≤ H := by
  induction fuel with
  | zero =>
    intro y maxH cs rem ps rem' _ _ _ _ _ h p hp
    rw [packLoop] at h
    split at h
    · exact absurd h (by simp)
    · obtain ⟨rfl, rfl⟩ : ([] : List Placement) = ps ∧ rem = rem' := by
        simpa using h
      exact absurd hp (List.not_mem_nil p)
  | succ n ih =>
    intro y maxH cs rem ps rem' huni hw hh hcs hmaxh h p hp
    rw [packLoop] at h
    split at h <;> rename_i hguard
    · simp only [] at h
      split at h
      · exact absurd h (by simp)
      · rename_i ps2 rem2 hrec
        obtain ⟨rfl, rfl⟩ :
            (packRow glyphs W y 0 cs 0 rem).placed ++ ps2 = ps ∧ rem2 = rem' := by
          simpa using h
        have hunirest : ∀ cp ∈ (packRow glyphs W y 0 cs 0 rem).rem,
            ((mget glyphs cp).getD defaultGlyph).width = w ∧
              ((mget glyphs cp).getD defaultGlyph).height = hgt := by
          intro cp hc
          refine huni cp ?_
          rw [packRow_cps glyphs W y rem 0 cs 0]
          exact List.mem_append_right _ hc
        have hcscases : cs ≤ W := by
          rcases hcs with rfl | rfl
          · exact hw
          · exact Nat.zero_le W
        have hrow_nonempty : (packRow glyphs W y 0 cs 0 rem).placed ≠ [] :=
          packRow_nonempty glyphs W y rem 0 cs 0 hguard.2 (by simpa using hcscases)
        have hhead : ∃ p0, p0 ∈ (packRow glyphs W y 0 cs 0 rem).placed :=
          List.exists_mem_of_ne_nil _ hrow_nonempty
        have hglyph_h : ∀ q ∈ (packRow glyphs W y 0 cs 0 rem).placed,
            q.glyph.height = hgt := by
          intro q hq
          have h1 := packRow_glyph glyphs W y rem 0 cs 0 q hq
          have h2 : q.cp ∈ rem := by
            rw [packRow_cps glyphs W y rem 0 cs 0]
            exact List.mem_append_left _ (List.mem_map_of_mem Placement.cp hq)
          rw [h1]
          exact (huni q.cp h2).2
        have hmaxh_row : hgt ≤ (packRow glyphs W y 0 cs 0 rem).maxH := by
          obtain ⟨p0, hp0⟩ := hhead
          have := packRow_placed_h glyphs W y rem 0 cs 0 p0 hp0
          rw [hglyph_h p0 hp0] at this
          exact this
        rcases List.mem_append.mp hp with hp | hp
        · constructor
          · exact packRow_contained glyphs W y rem w 0 cs 0
              (fun c hc => (huni c hc).1) hw (Or.inr rfl) p hp
          · have h1 : p.y = y := packRow_placed_y glyphs W y rem 0 cs 0 p hp
            have h2 : p.glyph.height = hgt := hglyph_h p hp
            rw [h1, h2]
            rcases hmaxh with hm | hm
            · exact le_trans (Nat.add_le_add_left hm y) hguard.1
            · exact hm
        · refine ih _ _ _ _ _ _ hunirest hw hh
            (packRow_cs_uniform glyphs W y rem w 0 cs 0
              (fun c hc => (huni c hc).1) hcs)
            (Or.inl hmaxh_row) hrec p hp
    · obtain ⟨rfl, rfl⟩ : ([] : List Placement) = ps ∧ rem = rem' := by
        simpa using h
      exact absurd hp (List.not_mem_nil p)

end PackLoopLemmas

/-! ### C1: disjointness always, containment under uniform glyph sizes -/

/-- C1 (corrected): the placements produced by the constructor's packing
loop always have pairwise disjoint rectangles, but full containment in the
atlas canvas bounds needs the glyph bitmaps to share one width and one
height (each at most the canvas side): the loop's guards test the
*previous* glyph's width and the *previous* row's height, so with mixed
sizes a placed rectangle can stick out of the canvas (see
`atlas_containment_false`). -/
theorem atlas_disjoint_and_uniform_contained
    (fuel : Nat) (opts : SDFFontOptions) (td : GlyphKey → SDFGlyph) (F : SDFFontModel)
    (w hgt : Nat) (h : buildSDFFont fuel opts td = some F) :
    List.Pairwise (fun p q => ∀ u v, ¬(inRect p u v ∧ inRect q u v)) F.placements ∧
      ((∀ cp ∈ jsCodePoints (opts.alphabet.getD defaultAlphabet),
          (td cp).width = w ∧ (td cp).height = hgt) →
        w ≤ F.params.dimension → hgt ≤ F.params.dimension →
        ∀ p ∈ F.placements,
          p.x + p.glyph.width ≤ F.params.dimension ∧
            p.y + p.glyph.height ≤ F.params.dimension) := by
  obtain ⟨hparams, hglyphs, hpack, hloc, hatlas⟩ := buildSDFFont_some h
  unfold pack at hpack
  constructor
  · exact (packLoop_pairwise F.glyphs F.params.dimension F.params.dimension fuel
      _ _ _ _ _ _ hpack).imp (fun hsep u v => sep_disjoint hsep u v)
  · intro huni hwd hhd
    have huni' : ∀ cp ∈ jsCodePoints (opts.alphabet.getD defaultAlphabet),
        ((mget F.glyphs cp).getD defaultGlyph).width = w ∧
          ((mget F.glyphs cp).getD defaultGlyph).height = hgt := by
      intro cp hcp
      rw [hglyphs, mget_buildGlyphs _ td cp hcp]
      simpa using huni cp hcp
    exact packLoop_contained F.glyphs F.params.dimension F.params.dimension w hgt fuel
      _ _ _ _ _ _ huni' hwd hhd (Or.inr rfl) (Or.inr (by simpa using hhd)) hpack

/-- Rasterizer with one uniform bitmap size 126 × 126. -/
def uniformDraw : GlyphKey → SDFGlyph := fun _ => ⟨[], 126, 126, 0, 0, 0, 0, 0⟩

/-- Fallback model used only to extract the `some` payload of a successful
construction. -/
def junkFont : SDFFontModel :=
  ⟨mkFontParams ⟨none, none⟩, [], [], [], blankCanvas, []⟩

def uniformFont : SDFFontModel :=
  (buildSDFFont 9 ⟨some 16, some [97, 98]⟩ uniformDraw).getD junkFont

theorem uniformFont_eq :
    buildSDFFont 9 ⟨some 16, some [97, 98]⟩ uniformDraw = some uniformFont := by
  have hs : (buildSDFFont 9 ⟨some 16, some [97, 98]⟩ uniformDraw).isSome = true := by decide
  unfold uniformFont
  rcases hb : buildSDFFont 9 ⟨some 16, some [97, 98]⟩ uniformDraw with _ | F
  · rw [hb] at hs
    exact absurd hs (by simp)
  · simp

/-- C1 witness: alphabet `"ab"`, both bitmaps 126 × 126 on the 252-pixel
canvas — the hypotheses of `atlas_disjoint_and_uniform_contained` hold and
both conclusions apply. -/
theorem atlas_disjoint_and_uniform_contained_witness :
    buildSDFFont 9 ⟨some 16, some [97, 98]⟩ uniformDraw = some uniformFont ∧
      List.Pairwise (fun p q => ∀ u v, ¬(inRect p u v ∧ inRect q u v))
        uniformFont.placements ∧
      (∀ p ∈ uniformFont.placements,
        p.x + p.glyph.width ≤ uniformFont.params.dimension ∧
          p.y + p.glyph.height ≤ uniformFont.params.dimension) := by
  have hmain := atlas_disjoint_and_uniform_contained 9 ⟨some 16, some [97, 98]⟩
    uniformDraw uniformFont 126 126 uniformFont_eq
  exact ⟨uniformFont_eq, hmain.1, hmain.2 (by decide) (by decide) (by decide)⟩

/-! ### Pixel contents of the atlas -/

theorem foldl_putGlyph_skip (W H u v : Nat) (tl : List Placement) (c : Canvas)
    (h : ∀ q ∈ tl, ¬inRect q u v) : (tl.foldl (putGlyph W H) c) u v = c u v := by
  induction tl generalizing c with
  | nil => rfl
  | cons q tl ih =>
    rw [List.foldl_cons]
    rw [ih (putGlyph W H c q) (fun r hr => h r (List.mem_cons_of_mem q hr))]
    unfold putGlyph
    rw [if_neg]
    intro hcond
    exact h q (List.mem_cons_self q tl) ⟨hcond.1, hcond.2.1, hcond.2.2.1, hcond.2.2.2.1⟩

theorem foldl_putGlyph_pairwise (W H : Nat) (ps : List Placement) (c0 : Canvas)
    (hpw : List.Pairwise sep ps) (q : Placement) (hq : q ∈ ps) (u v : Nat)
    (hin : inRect q u v) (hu : u < W) (hv : v < H) :
    (ps.foldl (putGlyph W H) c0) u v =
      rgbaAt q.glyph.data ((v - q.y) * q.glyph.width + (u - q.x)) := by
  induction ps generalizing c0 with
  | nil => exact absurd hq (List.not_mem_nil q)
  | cons p tl ih =>
    rw [List.foldl_cons]
    rcases List.mem_cons.mp hq with rfl | hq
    · rw [foldl_putGlyph_skip W H u v tl (putGlyph W H c0 q)]
      · unfold putGlyph
        rw [if_pos ⟨hin.1, hin.2.1, hin.2.2.1, hin.2.2.2, hu, hv⟩]
      · intro r hr hrin
        exact sep_disjoint ((List.pairwise_cons.mp hpw).1 r hr) u v ⟨hin, hrin⟩
    · exact ih (putGlyph W H c0 p) (List.pairwise_cons.mp hpw).2 hq

/-! ### C5: both tables populated and pixels reproduced, once everything
fits -/

/-- C5 counterexample: with alphabet `"ab"` and 252×130 bitmaps the glyph
table contains `'b'` but the atlas-location table does not — the claim's
"both tables contain an entry for every alphabet codepoint" fails when the
packing loop runs out of room. -/
theorem lookup_round_trip_false :
    (buildSDFFont 9 ⟨some 16, some [97, 98]⟩ overflowDraw).map
        (fun F => ((mget F.glyphs [98]).isSome, mget F.glyphAtlasLocation [98])) =
      some (true, none) := by
  decide

/-- C5 (corrected): whenever the packing loop placed every glyph
(`F.rem = []`) and every placed rectangle lies inside the canvas bounds,
every alphabet code point has an entry in both the glyph table and the
atlas-location table, and the atlas pixels over the recorded rectangle
reproduce the glyph's distance bitmap encoded as `R = G = B = byte,
A = 255` (`rgbaAt`), byte for byte. -/
theorem lookup_round_trip_under_fit
    (fuel : Nat) (opts : SDFFontOptions) (td : GlyphKey → SDFGlyph) (F : SDFFontModel)
    (h : buildSDFFont fuel opts td = some F) (hall : F.rem = [])
    (hcont : ∀ p ∈ F.placements,
      p.x + p.glyph.width ≤ F.params.dimension ∧
        p.y + p.glyph.height ≤ F.params.dimension) :
    ∀ cp ∈ jsCodePoints (opts.alphabet.getD defaultAlphabet),
      mget F.glyphs cp = some (td cp) ∧
        ∃ x y, mget F.glyphAtlasLocation cp = some (x, y) ∧
          ∀ i j, i < (td cp).width → j < (td cp).height →
            F.atlas (x + i) (y + j) = rgbaAt (td cp).data (j * (td cp).width + i) := by
  obtain ⟨hparams, hglyphs, hpack, hloc, hatlas⟩ := buildSDFFont_some h
  unfold pack at hpack
  intro cp hcp
  have hget : mget F.glyphs cp = some (td cp) := by
    rw [hglyphs]
    exact mget_buildGlyphs _ td cp hcp
  refine ⟨hget, ?_⟩
  have hcps := packLoop_cps F.glyphs F.params.dimension F.params.dimension fuel
    _ _ _ _ _ _ hpack
  rw [hall, List.append_nil] at hcps
  have hmem : cp ∈ F.placements.map Placement.cp := by
    rw [← hcps]; exact hcp
  obtain ⟨q0, hq0, hq0cp⟩ := List.mem_map.mp hmem
  have hfind : ∃ q, F.placements.reverse.find? (fun p => p.cp = cp) = some q := by
    rcases hf : F.placements.reverse.find? (fun p => p.cp = cp) with _ | q
    · rw [List.find?_eq_none] at hf
      exact absurd (by simpa using hq0cp)
        (by simpa using hf q0 (List.mem_reverse.mpr hq0))
    · exact ⟨q, hf⟩
  obtain ⟨q, hq⟩ := hfind
  have hqcp : q.cp = cp := by
    have := List.find?_some hq
    simpa using this
  have hqmem : q ∈ F.placements := List.mem_reverse.mp (List.mem_of_find?_eq_some hq)
  have hqglyph : q.glyph = td cp := by
    have := packLoop_glyph F.glyphs F.params.dimension F.params.dimension fuel
      _ _ _ _ _ _ hpack q hqmem
    rw [this, hqcp, hget]
    rfl
  refine ⟨q.x, q.y, ?_, ?_⟩
  · rw [hloc]
    unfold locMap
    rw [mget_foldl_mset_find Placement.cp (fun p => (p.x, p.y)) F.placements [] cp, hq]
  · intro i j hi hj
    have hin : inRect q (q.x + i) (q.y + j) := by
      refine ⟨Nat.le_add_right _ _, ?_, Nat.le_add_right _ _, ?_⟩
      · rw [hqglyph]; exact Nat.add_lt_add_left hi q.x
      · rw [hqglyph]; exact Nat.add_lt_add_left hj q.y
    have hbounds := hcont q hqmem
    have hu : q.x + i < F.params.dimension := by
      refine lt_of_lt_of_le ?_ hbounds.1
      rw [hqglyph]; exact Nat.add_lt_add_left hi q.x
    have hv : q.y + j < F.params.dimension := by
      refine lt_of_lt_of_le ?_ hbounds.2
      rw [hqglyph]; exact Nat.add_lt_add_left hj q.y
    have hpw := packLoop_pairwise F.glyphs F.params.dimension F.params.dimension fuel
      _ _ _ _ _ _ hpack
    rw [hatlas]
    unfold renderAtlas
    rw [foldl_putGlyph_pairwise F.params.dimension F.params.dimension F.placements
      blankCanvas hpw q hqmem (q.x + i) (q.y + j) hin hu hv]
    rw [hqglyph]
    congr 1
    rw [Nat.add_sub_cancel_left, Nat.add_sub_cancel_left]

/-- Rasterizer with 2×2 bitmaps carrying distinct payload bytes. -/
def pixelDraw : GlyphKey → SDFGlyph := fun cp =>
  if cp = [97] then ⟨[1, 2, 3, 4], 2, 2, 0, 0, 0, 0, 0⟩
  else ⟨[5, 6, 7, 8], 2, 2, 0, 0, 0, 0, 0⟩

def pixelFont : SDFFontModel :=
  (buildSDFFont 9 ⟨some 16, some [97, 98]⟩ pixelDraw).getD junkFont

theorem pixelFont_eq :
    buildSDFFont 9 ⟨some 16, some [97, 98]⟩ pixelDraw = some pixelFont := by
  have hs : (buildSDFFont 9 ⟨some 16, some [97, 98]⟩ pixelDraw).isSome = true := by decide
  unfold pixelFont
  rcases hb : buildSDFFont 9 ⟨some 16, some [97, 98]⟩ pixelDraw with _ | F
  · rw [hb] at hs
    exact absurd hs (by simp)
  · simp

/-- C5 witness: alphabet `"ab"` with 2×2 bitmaps `[1,2,3,4]` and
`[5,6,7,8]`; everything is placed in bounds, and the round-trip theorem
applies to every alphabet code point. -/
theorem lookup_round_trip_under_fit_witness :
    buildSDFFont 9 ⟨some 16, some [97, 98]⟩ pixelDraw = some pixelFont ∧
      pixelFont.rem = [] ∧
      (∀ cp ∈ jsCodePoints [97, 98],
        mget pixelFont.glyphs cp = some (pixelDraw cp) ∧
          ∃ x y, mget pixelFont.glyphAtlasLocation cp = some (x, y) ∧
            ∀ i j, i < (pixelDraw cp).width → j < (pixelDraw cp).height →
              pixelFont.atlas (x + i) (y + j) =
                rgbaAt (pixelDraw cp).data (j * (pixelDraw cp).width + i)) :=
  ⟨pixelFont_eq, by decide,
   lookup_round_trip_under_fit 9 ⟨some 16, some [97, 98]⟩ pixelDraw pixelFont
     pixelFont_eq (by decide) (by decide)⟩

/-! ### Renderer step lemmas -/

/-- The emission condition of the character loop in `draw`: both glyph
tables have the code point. -/
def present (font : RFont) (cp : GlyphKey) : Bool :=
  (mget font.glyphs cp).isSome && (mget font.glyphAtlasLocation cp).isSome

@[simp] theorem flushR_maxImages (s : RState) : (flushR s).maxImages = s.maxImages := by
  unfold flushR; split <;> rfl

@[simp] theorem flushR_maxTextures (s : RState) : (flushR s).maxTextures = s.maxTextures := by
  unfold flushR; split <;> rfl

@[simp] theorem flushR_imageCount (s : RState) : (flushR s).imageCount = 0 := by
  unfold flushR; split
  · assumption
  · rfl

@[simp] theorem flushR_sdfGamma (s : RState) : (flushR s).sdfGamma = s.sdfGamma := by
  unfold flushR; split <;> rfl

@[simp] theorem flushR_sdfHalo (s : RState) : (flushR s).sdfHalo = s.sdfHalo := by
  unfold flushR; split <;> rfl

theorem flushR_textures (s : RState) : (flushR s).textures = s.textures ∨ (flushR s).textures = [] := by
  unfold flushR; split
  · exact Or.inl rfl
  · exact Or.inr rfl

theorem flushR_textures_le (s : RState) : (flushR s).textures.length ≤ s.textures.length := by
  rcases flushR_textures s with h | h <;> rw [h] <;> simp

theorem flushR_totalQuads (s : RState) : totalQuads (flushR s) = totalQuads s := by
  unfold flushR
  split
  · rfl
  · unfold totalQuads
    simp
    omega

@[simp] theorem addImage_imageCount (s : RState) (img : Nat) :
    (addImageAsTexture s img).imageCount = s.imageCount := by
  unfold addImageAsTexture; split
  · rfl
  · split <;> rfl

@[simp] theorem addImage_maxImages (s : RState) (img : Nat) :
    (addImageAsTexture s img).maxImages = s.maxImages := by
  unfold addImageAsTexture; split
  · rfl
  · split <;> rfl

@[simp] theorem addImage_maxTextures (s : RState) (img : Nat) :
    (addImageAsTexture s img).maxTextures = s.maxTextures := by
  unfold addImageAsTexture; split
  · rfl
  · split <;> rfl

@[simp] theorem addImage_sdfGamma (s : RState) (img : Nat) :
    (addImageAsTexture s img).sdfGamma = s.sdfGamma := by
  unfold addImageAsTexture; split
  · rfl
  · split <;> rfl

@[simp] theorem addImage_sdfHalo (s : RState) (img : Nat) :
    (addImageAsTexture s img).sdfHalo = s.sdfHalo := by
  unfold addImageAsTexture; split
  · rfl
  · split <;> rfl

@[simp] theorem addImage_pending (s : RState) (img : Nat) :
    (addImageAsTexture s img).pending = s.pending := by
  unfold addImageAsTexture; split
  · rfl
  · split <;> rfl

@[simp] theorem addImage_flushed (s : RState) (img : Nat) :
    (addImageAsTexture s img).flushed = s.flushed := by
  unfold addImageAsTexture; split
  · rfl
  · split <;> rfl

theorem addImage_totalQuads (s : RState) (img : Nat) :
    totalQuads (addImageAsTexture s img) = totalQuads s := by
  unfold totalQuads
  rw [addImage_pending, addImage_flushed]

theorem addImage_textures_le (s : RState) (img : Nat) :
    (addImageAsTexture s img).textures.length ≤ s.textures.length + 1 := by
  unfold addImageAsTexture; split
  · exact Nat.le_succ _
  · split
    · exact Nat.le_succ _
    · simp

/-- Normal form of one character-loop iteration. -/
theorem processChar_eq (font : RFont) (tid : Int) (s : RState) (cp : GlyphKey) :
    processChar font tid s cp =
      if present font cp then
        { (if isFull s then flushR s else s) with
          imageCount := (if isFull s then flushR s else s).imageCount + 1,
          vertexIndex := (if isFull s then flushR s else s).vertexIndex + 36,
          pending := (if isFull s then flushR s else s).pending ++
            [⟨tid, font.image, (if isFull s then flushR s else s).sdfGamma,
              (if isFull s then flushR s else s).sdfHalo⟩] }
      else (if isFull s then flushR s else s) := by
  unfold processChar present
  rcases mget font.glyphs cp with _ | g <;>
    rcases mget font.glyphAtlasLocation cp with _ | l <;> simp

theorem processChar_statics (font : RFont) (tid : Int) (s : RState) (cp : GlyphKey) :
    (processChar font tid s cp).maxImages = s.maxImages ∧
      (processChar font tid s cp).maxTextures = s.maxTextures ∧
      (processChar font tid s cp).sdfGamma = s.sdfGamma ∧
      (processChar font tid s cp).sdfHalo = s.sdfHalo := by
  rw [processChar_eq]
  split <;> split <;> simp

theorem processChar_totalQuads (font : RFont) (tid : Int) (s : RState) (cp : GlyphKey) :
    totalQuads (processChar font tid s cp) =
      totalQuads s + (if present font cp then 1 else 0) := by
  rw [processChar_eq]
  split <;> split
  · have h := flushR_totalQuads s
    unfold totalQuads at h ⊢
    simp
    omega
  · unfold totalQuads
    simp
    omega
  · simp [flushR_totalQuads]
  · simp

theorem processChar_count (font : RFont) (tid : Int) (s : RState) (cp : GlyphKey)
    (h1 : 1 ≤ s.maxImages) : (processChar font tid s cp).imageCount ≤ s.maxImages := by
  rw [processChar_eq]
  split
  · split <;> rename_i hful
    · simpa using h1
    · unfold isFull at hful
      simp at hful
      simp
      omega
  · split <;> rename_i hful
    · simp
    · unfold isFull at hful
      simp at hful
      omega

theorem processChar_textures_le (font : RFont) (tid : Int) (s : RState) (cp : GlyphKey) :
    (processChar font tid s cp).textures.length ≤ s.textures.length := by
  rw [processChar_eq]
  split <;> split
  · simpa using flushR_textures_le s
  · simp
  · simpa using flushR_textures_le s
  · simp

theorem fold_statics (font : RFont) (tid : Int) (cps : List GlyphKey) : ∀ s : RState,
    (cps.foldl (processChar font tid) s).maxImages = s.maxImages ∧
      (cps.foldl (processChar font tid) s).maxTextures = s.maxTextures ∧
      (cps.foldl (processChar font tid) s).sdfGamma = s.sdfGamma ∧
      (cps.foldl (processChar font tid) s).sdfHalo = s.sdfHalo := by
  induction cps with
  | nil => intro s; exact ⟨rfl, rfl, rfl, rfl⟩
  | cons cp rest ih =>
    intro s
    rw [List.foldl_cons]
    obtain ⟨h1, h2, h3, h4⟩ := ih (processChar font tid s cp)
    obtain ⟨g1, g2, g3, g4⟩ := processChar_statics font tid s cp
    exact ⟨h1.trans g1, h2.trans g2, h3.trans g3, h4.trans g4⟩

theorem fold_count (font : RFont) (tid : Int) (cps : List GlyphKey) : ∀ s : RState,
    1 ≤ s.maxImages → s.imageCount ≤ s.maxImages →
    (cps.foldl (processChar font tid) s).imageCount ≤ s.maxImages := by
  induction cps with
  | nil => intro s _ h; exact h
  | cons cp rest ih =>
    intro s h1 _
    rw [List.foldl_cons]
    obtain ⟨g1, _, _, _⟩ := processChar_statics font tid s cp
    have := ih (processChar font tid s cp) (by rw [g1]; exact h1)
      (by rw [g1]; exact processChar_count font tid s cp h1)
    rw [g1] at this
    exact this

theorem fold_totalQuads (font : RFont) (tid : Int) (cps : List GlyphKey) : ∀ s : RState,
    totalQuads (cps.foldl (processChar font tid) s) =
      totalQuads s + cps.countP (fun cp => present font cp) := by
  induction cps with
  | nil => intro s; simp
  | cons cp rest ih =>
    intro s
    rw [List.foldl_cons, ih (processChar font tid s cp), processChar_totalQuads,
      List.countP_cons]
    by_cases hp : present font cp <;> simp [hp] <;> omega

theorem fold_textures_le (font : RFont) (tid : Int) (cps : List GlyphKey) : ∀ s : RState,
    (cps.foldl (processChar font tid) s).textures.length ≤ s.textures.length := by
  induction cps with
  | nil => intro s; exact le_refl _
  | cons cp rest ih =>
    intro s
    rw [List.foldl_cons]
    exact le_trans (ih (processChar font tid s cp)) (processChar_textures_le font tid s cp)

theorem gammaStep_statics (s : RState) (font : RFont) :
    (gammaStep s font).maxImages = s.maxImages ∧
      (gammaStep s font).maxTextures = s.maxTextures := by
  unfold gammaStep; split <;> simp

theorem gammaStep_count_le (s : RState) (font : RFont) :
    (gammaStep s font).imageCount ≤ s.imageCount := by
  unfold gammaStep; split <;> simp

theorem gammaStep_totalQuads (s : RState) (font : RFont) :
    totalQuads (gammaStep s font) = totalQuads s := by
  unfold gammaStep
  split
  · have h := flushR_totalQuads s
    unfold totalQuads at h ⊢
    simpa using h
  · rfl

theorem gammaStep_textures_le (s : RState) (font : RFont) :
    (gammaStep s font).textures.length ≤ s.textures.length := by
  unfold gammaStep
  split
  · simpa using flushR_textures_le s
  · exact le_refl _

theorem entryState_statics (s : RState) (font : RFont) :
    (entryState s font).maxImages = s.maxImages ∧
      (entryState s font).maxTextures = s.maxTextures := by
  unfold entryState
  obtain ⟨h1, h2⟩ := gammaStep_statics (if isFull s then flushR s else s) font
  rw [addImage_maxImages, addImage_maxTextures, h1, h2]
  split <;> simp

theorem entryState_count_le (s : RState) (font : RFont) :
    (entryState s font).imageCount ≤ s.imageCount := by
  unfold entryState
  rw [addImage_imageCount]
  refine le_trans (gammaStep_count_le _ font) ?_
  split <;> simp

theorem entryState_totalQuads (s : RState) (font : RFont) :
    totalQuads (entryState s font) = totalQuads s := by
  unfold entryState
  rw [addImage_totalQuads, gammaStep_totalQuads]
  split
  · exact flushR_totalQuads s
  · rfl

theorem drawR_count (s : RState) (font : RFont) (t : JSStr)
    (h1 : 1 ≤ s.maxImages) (h : s.imageCount ≤ s.maxImages) :
    (drawR s font t).imageCount ≤ s.maxImages := by
  unfold drawR
  obtain ⟨hm, _⟩ := entryState_statics s font
  have := fold_count font (getTextureId (entryState s font) font.image)
    (jsCodePoints t) (entryState s font) (by rw [hm]; exact h1)
    (by rw [hm]; exact le_trans (entryState_count_le s font) h)
  rw [hm] at this
  exact this

theorem drawR_statics (s : RState) (font : RFont) (t : JSStr) :
    (drawR s font t).maxImages = s.maxImages ∧
      (drawR s font t).maxTextures = s.maxTextures := by
  unfold drawR
  obtain ⟨h1, h2, _, _⟩ := fold_statics font (getTextureId (entryState s font) font.image)
    (jsCodePoints t) (entryState s font)
  obtain ⟨g1, g2⟩ := entryState_statics s font
  exact ⟨h1.trans g1, h2.trans g2⟩

theorem drawR_totalQuads (s : RState) (font : RFont) (t : JSStr) :
    totalQuads (drawR s font t) =
      totalQuads s + (jsCodePoints t).countP (fun cp => present font cp) := by
  unfold drawR
  rw [fold_totalQuads, entryState_totalQuads]

theorem runCmds_inv (cmds : List RCmd) : ∀ s : RState,
    1 ≤ s.maxImages → s.imageCount ≤ s.maxImages →
    (runCmds s cmds).imageCount ≤ s.maxImages ∧
      (runCmds s cmds).maxImages = s.maxImages ∧
      (runCmds s cmds).maxTextures = s.maxTextures := by
  induction cmds with
  | nil => intro s _ h; exact ⟨h, rfl, rfl⟩
  | cons c rest ih =>
    intro s h1 h
    cases c with
    | draw f t =>
      rw [runCmds]
      obtain ⟨g1, g2⟩ := drawR_statics s f t
      obtain ⟨r1, r2, r3⟩ := ih (drawR s f t) (by rw [g1]; exact h1)
        (by rw [g1]; exact drawR_count s f t h1 h)
      exact ⟨by rw [← g1]; exact r1, r2.trans g1, r3.trans g2⟩
    | flush =>
      rw [runCmds]
      obtain ⟨r1, r2, r3⟩ := ih (flushR s) (by rw [flushR_maxImages]; exact h1)
        (by rw [flushR_maxImages, flushR_imageCount]; exact Nat.zero_le _)
      exact ⟨by rw [← flushR_maxImages s]; exact r1,
        r2.trans (flushR_maxImages s), r3.trans (flushR_maxTextures s)⟩

/-! ### C6: batch capacity invariant -/

/-- C6 (confirmed): from the freshly initialised renderer, after any
sequence of `draw`/`flush` calls the quad count is at most
`_maxImages = 10922 = floor(65535 / 6)` (so the invariant holds immediately
before and after each call), and one further `draw` call emits exactly one
quad for every present glyph of its text — mid-string flushes move quads
into submissions but never drop one (`totalQuads` counts buffered plus
submitted quads). -/
theorem batch_capacity_invariant (m : Nat) (cmds : List RCmd) (f : RFont) (t : JSStr) :
    (runCmds (initState m) cmds).imageCount ≤ (initState m).maxImages ∧
      (initState m).maxImages = 10922 ∧ 10922 = 65535 / 6 ∧
      totalQuads (drawR (runCmds (initState m) cmds) f t) =
        totalQuads (runCmds (initState m) cmds) +
          (jsCodePoints t).countP (fun cp => present f cp) := by
  refine ⟨?_, rfl, by decide, drawR_totalQuads _ f t⟩
  exact (runCmds_inv cmds (initState m) (by norm_num [initState]) (by norm_num [initState])).1

/-! ### C9: missing glyphs are skipped silently -/

/-- C9 (confirmed): a character whose code point is absent from the font's
glyph table emits no quad and changes nothing: the total quad account is
unchanged, no buffered quad is added, and when the batch is not full the
iteration state is exactly the same as if the character were not in the
text at all (the loop continues with the remaining characters).  The
embedding of `draw` is a total function — the source path for a missing
glyph is a bare `continue`, with no `throw` anywhere in `draw`. -/
theorem missing_glyph_skipped (font : RFont) (tid : Int) (s : RState) (cp : GlyphKey)
    (rest : List GlyphKey)
    (hmiss : mget font.glyphs cp = none ∨ mget font.glyphAtlasLocation cp = none) :
    totalQuads (processChar font tid s cp) = totalQuads s ∧
      (processChar font tid s cp).pending.length ≤ s.pending.length ∧
      (isFull s = false → processChar font tid s cp = s) ∧
      (isFull s = false →
        (cp :: rest).foldl (processChar font tid) s =
          rest.foldl (processChar font tid) s) := by
  have hpres : present font cp = false := by
    unfold present
    rcases hmiss with h | h <;> rw [h] <;> simp
  have hskip : processChar font tid s cp = if isFull s then flushR s else s := by
    rw [processChar_eq, hpres]
    simp
  have hnotfull : isFull s = false → processChar font tid s cp = s := by
    intro hf
    rw [hskip, hf]
    simp
  refine ⟨?_, ?_, hnotfull, ?_⟩
  · rw [hskip]
    split
    · exact flushR_totalQuads s
    · rfl
  · rw [hskip]
    split
    · unfold flushR
      split
      · exact le_refl _
      · simp
    · exact le_refl _
  · intro hf
    rw [List.foldl_cons, hnotfull hf]

/-- C9 witness: the fresh renderer (not full), a font with empty glyph
tables, and the character `'x'`. -/
theorem missing_glyph_skipped_witness :
    (mget (⟨3, fontGamma 16, fontHalo, [], []⟩ : RFont).glyphs [120] = none ∨
      mget (⟨3, fontGamma 16, fontHalo, [], []⟩ : RFont).glyphAtlasLocation [120] = none) ∧
      totalQuads (processChar ⟨3, fontGamma 16, fontHalo, [], []⟩ 0 (initState 8) [120]) =
        totalQuads (initState 8) ∧
      (isFull (initState 8) = false →
        processChar ⟨3, fontGamma 16, fontHalo, [], []⟩ 0 (initState 8) [120] =
          initState 8) :=
  ⟨Or.inl rfl,
   (missing_glyph_skipped ⟨3, fontGamma 16, fontHalo, [], []⟩ 0 (initState 8) [120] []
     (Or.inl rfl)).1,
   (missing_glyph_skipped ⟨3, fontGamma 16, fontHalo, [], []⟩ 0 (initState 8) [120] []
     (Or.inl rfl)).2.2.1⟩

/-! ### C7: texture-slot bound -/

/-- A font whose glyph tables are empty (its atlas image id is `i`). -/
def emptyFont (i : Nat) : RFont := ⟨i, fontGamma 16, fontHalo, [], []⟩

/-- Nine draw calls with nine distinct atlas images whose texts contain no
present glyph (each emits zero quads). -/
def zeroQuadDraws : List RCmd := (List.range 9).map (fun i => RCmd.draw (emptyFont i) [120])

set_option maxRecDepth 8000 in
/-- C7 counterexample: on a renderer with `maxTextures = 8`, nine `draw`
calls (no explicit flush anywhere) using nine distinct atlas images and
texts with no present glyph leave **nine** distinct images with assigned
texture slots: each call's capacity flush is a no-op because the buffered
quad count is zero (`flush` early-exits without clearing the texture
table), so reaching the bound does not force the promised flush and the
bound is exceeded. -/
theorem texture_slot_bound_false :
    (runCmds (initState 8) zeroQuadDraws).textures.length = 9 ∧
      (runCmds (initState 8) zeroQuadDraws).maxTextures = 8 ∧
      RCmd.flush ∉ zeroQuadDraws ∧
      ¬((runCmds (initState 8) zeroQuadDraws).textures.length ≤
        (runCmds (initState 8) zeroQuadDraws).maxTextures) := by
  refine ⟨by decide, by decide, by decide, by decide⟩

/-- A draw command that emits at least one quad (and is not an explicit
flush). -/
def drawEmits : RCmd → Prop
  | RCmd.draw f t => ∃ cp ∈ jsCodePoints t, present f cp = true
  | RCmd.flush => False

instance (c : RCmd) : Decidable (drawEmits c) := by
  cases c with
  | draw f t => unfold drawEmits; infer_instance
  | flush => unfold drawEmits; exact instDecidableFalse

/-- The texture-table invariant that survives quad-emitting draws: the slot
count is within the bound, and it is strictly below the bound whenever the
quad buffer is empty (so the next capacity flush will actually clear it). -/
def slotInv (s : RState) : Prop :=
  s.textures.length ≤ s.maxTextures ∧
    (s.textures.length < s.maxTextures ∨ s.imageCount ≠ 0)

theorem flushIfFull_lt (s : RState) (h2 : 1 ≤ s.maxTextures)
    (hR : s.textures.length < s.maxTextures ∨ s.imageCount ≠ 0) :
    (if isFull s then flushR s else s).textures.length < s.maxTextures := by
  split <;> rename_i hf
  · unfold flushR
    split <;> rename_i hc
    · rcases hR with h | h
      · exact h
      · exact absurd hc h
    · simpa using h2
  · unfold isFull at hf
    simp at hf
    exact hf.2

theorem processChar_tex_strong (font : RFont) (tid : Int) (s : RState) (cp : GlyphKey)
    (h2 : 1 ≤ s.maxTextures)
    (hR : s.textures.length < s.maxTextures ∨ s.imageCount ≠ 0) :
    (processChar font tid s cp).textures.length < s.maxTextures := by
  have hs1 := flushIfFull_lt s h2 hR
  rw [processChar_eq]
  split
  · simpa using hs1
  · exact hs1

theorem flushIfFull_of_bad (s : RState) (hlen : s.maxTextures ≤ s.textures.length)
    (hc : s.imageCount = 0) : (if isFull s then flushR s else s) = s := by
  have hf : isFull s = true := by unfold isFull; simp [hlen]
  rw [if_pos hf]
  unfold flushR
  rw [if_pos hc]

theorem fold_slot_bound (font : RFont) (tid : Int) (cps : List GlyphKey) : ∀ s : RState,
    1 ≤ s.maxTextures → s.textures.length ≤ s.maxTextures →
    ((s.textures.length < s.maxTextures ∨ s.imageCount ≠ 0) ∨
      ∃ cp ∈ cps, present font cp = true) →
    (cps.foldl (processChar font tid) s).textures.length ≤ s.maxTextures ∧
      ((cps.foldl (processChar font tid) s).textures.length < s.maxTextures ∨
        (cps.foldl (processChar font tid) s).imageCount ≠ 0) := by
  induction cps with
  | nil =>
    intro s _ hlen hh
    rcases hh with h | h
    · exact ⟨hlen, h⟩
    · simp at h
  | cons cp rest ih =>
    intro s h2 hlen hh
    rw [List.foldl_cons]
    obtain ⟨_, m2, _, _⟩ := processChar_statics font tid s cp
    have hgood : (s.textures.length < s.maxTextures ∨ s.imageCount ≠ 0) →
        (rest.foldl (processChar font tid) (processChar font tid s cp)).textures.length ≤
            s.maxTextures ∧
          ((rest.foldl (processChar font tid) (processChar font tid s cp)).textures.length <
              s.maxTextures ∨
            (rest.foldl (processChar font tid) (processChar font tid s cp)).imageCount ≠ 0) := by
      intro hR
      have hlt := processChar_tex_strong font tid s cp h2 hR
      have := ih (processChar font tid s cp) (by rw [m2]; exact h2)
        (by rw [m2]; exact le_of_lt hlt) (Or.inl (Or.inl (by rw [m2]; exact hlt)))
      rw [m2] at this
      exact this
    by_cases hR : s.textures.length < s.maxTextures ∨ s.imageCount ≠ 0
    · exact hgood hR
    · push_neg at hR
      obtain ⟨hb1, hb2⟩ := hR
      have hs1 : (if isFull s then flushR s else s) = s :=
        flushIfFull_of_bad s hb1 hb2
      by_cases hpres : present font cp = true
      · have hstep : processChar font tid s cp =
            { s with
              imageCount := s.imageCount + 1,
              vertexIndex := s.vertexIndex + 36,
              pending := s.pending ++ [⟨tid, font.image, s.sdfGamma, s.sdfHalo⟩] } := by
          rw [processChar_eq, if_pos hpres, hs1]
        have := ih (processChar font tid s cp) (by rw [m2]; exact h2)
          (by rw [m2, hstep]; exact hlen)
          (Or.inl (Or.inr (by rw [hstep]; simp)))
        rw [m2] at this
        exact this
      · have hstep : processChar font tid s cp = s := by
          rw [processChar_eq, if_neg hpres, hs1]
        rw [hstep]
        refine ih s h2 hlen (Or.inr ?_)
        rcases hh with hcontra | ⟨c, hc, hcp⟩
        · exact absurd hcontra (by push_neg; exact ⟨hb1, hb2⟩)
        · rcases List.mem_cons.mp hc with rfl | hc
          · exact absurd hcp hpres
          · exact ⟨c, hc, hcp⟩

theorem gammaStep_lt (s : RState) (font : RFont)
    (h : s.textures.length < s.maxTextures) :
    (gammaStep s font).textures.length < s.maxTextures := by
  unfold gammaStep
  split
  · exact lt_of_le_of_lt (by simpa using flushR_textures_le s) h
  · exact h

theorem drawR_slotInv (s : RState) (font : RFont) (t : JSStr)
    (h2 : 1 ≤ s.maxTextures) (hinv : slotInv s)
    (hemit : ∃ cp ∈ jsCodePoints t, present font cp = true) :
    slotInv (drawR s font t) := by
  have hs1 := flushIfFull_lt s h2 hinv.2
  have hmtx : (if isFull s then flushR s else s).maxTextures = s.maxTextures := by
    split <;> simp
  have hs2 := gammaStep_lt (if isFull s then flushR s else s) font
    (by rw [hmtx]; exact hs1)
  rw [hmtx] at hs2
  have hs3 : (entryState s font).textures.length ≤ s.maxTextures := by
    unfold entryState
    refine le_trans (addImage_textures_le _ font.image) ?_
    omega
  obtain ⟨e1, e2⟩ := entryState_statics s font
  unfold drawR
  unfold slotInv
  have := fold_slot_bound font (getTextureId (entryState s font) font.image)
    (jsCodePoints t) (entryState s font) (by rw [e2]; exact h2)
    (by rw [e2]; exact hs3) (Or.inr hemit)
  rw [e2] at this
  obtain ⟨f1, f2⟩ := fold_statics font (getTextureId (entryState s font) font.image)
    (jsCodePoints t) (entryState s font)
  rw [f2.1, e2]
  exact this

theorem runCmds_slotInv (cmds : List RCmd) : ∀ s : RState,
    1 ≤ s.maxTextures → slotInv s → (∀ c ∈ cmds, drawEmits c) →
    slotInv (runCmds s cmds) := by
  induction cmds with
  | nil => intro s _ h _; exact h
  | cons c rest ih =>
    intro s h2 hinv hall
    cases c with
    | draw f t =>
      rw [runCmds]
      obtain ⟨g1, g2⟩ := drawR_statics s f t
      have hemit : ∃ cp ∈ jsCodePoints t, present f cp = true :=
        hall (RCmd.draw f t) (List.mem_cons_self _ rest)
      have hinv2 : slotInv (drawR s f t) := by
        have := drawR_slotInv s f t h2 hinv hemit
        unfold slotInv at this ⊢
        rw [g2]
        rw [g2] at this
        exact this
      exact ih (drawR s f t) (by rw [g2]; exact h2) hinv2
        (fun c hc => hall c (List.mem_cons_of_mem _ hc))
    | flush =>
      exact absurd (hall RCmd.flush (List.mem_cons_self _ rest)) (by unfold drawEmits; simp)

/-- C7 (corrected): for draw-only command sequences in which **every draw
call emits at least one quad**, the number of distinct atlas images holding
texture slots never exceeds `maxTextures` (reaching the bound forces an
effective flush at the next call, because at least one quad is buffered).
The restriction is forced by `texture_slot_bound_false`: a draw whose text
has no present glyph registers its image while leaving the quad buffer
empty, and `flush` on an empty buffer clears nothing, so such draws can push
the slot count past the bound. -/
theorem texture_slot_bound_emitting (m : Nat) (cmds : List RCmd)
    (hm : 1 ≤ m) (hall : ∀ c ∈ cmds, drawEmits c) :
    (runCmds (initState m) cmds).textures.length ≤
        (runCmds (initState m) cmds).maxTextures ∧
      (runCmds (initState m) cmds).maxTextures = m := by
  have hmt : (runCmds (initState m) cmds).maxTextures = m :=
    (runCmds_inv cmds (initState m) (by norm_num [initState]) (by norm_num [initState])).2.2
  have := runCmds_slotInv cmds (initState m) (by simpa [initState] using hm)
    (by unfold slotInv; simp [initState]; omega) hall
  unfold slotInv at this
  rw [hmt] at this
  rw [hmt]
  exact ⟨this.1, rfl⟩

/-- A one-glyph bitmap for renderer tests. -/
def glyphOne : SDFGlyph := ⟨[1, 1, 1, 1], 2, 2, 0, 0, 0, 0, 0⟩

/-- A font with image id `i` whose tables hold exactly the character `c`. -/
def presentFont (i c : Nat) : RFont :=
  ⟨i, fontGamma 16, fontHalo, [([c], glyphOne)], [([c], (0, 0))]⟩

/-- C7 witness: one quad-emitting draw on a renderer with `maxTextures = 8`
keeps the slot count within the bound. -/
theorem texture_slot_bound_emitting_witness :
    1 ≤ 8 ∧ (∀ c ∈ [RCmd.draw (presentFont 1 97) [97]], drawEmits c) ∧
      ((runCmds (initState 8) [RCmd.draw (presentFont 1 97) [97]]).textures.length ≤
          (runCmds (initState 8) [RCmd.draw (presentFont 1 97) [97]]).maxTextures ∧
        (runCmds (initState 8) [RCmd.draw (presentFont 1 97) [97]]).maxTextures = 8) :=
  ⟨by decide, by decide,
   texture_slot_bound_emitting 8 [RCmd.draw (presentFont 1 97) [97]] (by decide) (by decide)⟩

/-! ### C8: shading uniformity and texture-slot validity of flushes -/

/-- The shading-parameter part of the batch invariant: every buffered quad
was emitted under the batch's current gamma/halo, every submitted batch was
uniform, and the buffered quad count mirrors `_imageCount`. -/
def shadeInv (s : RState) : Prop :=
  s.pending.length = s.imageCount ∧
    (∀ q ∈ s.pending, q.gamma = s.sdfGamma ∧ q.halo = s.sdfHalo) ∧
    (∀ b ∈ s.flushed, ∀ q ∈ b.quads, q.gamma = b.gamma ∧ q.halo = b.halo)

theorem flushR_shadeInv (s : RState) (h : shadeInv s) : shadeInv (flushR s) := by
  obtain ⟨h1, h2, h3⟩ := h
  unfold flushR shadeInv
  split
  · exact ⟨h1, h2, h3⟩
  · refine ⟨rfl, by simp, ?_⟩
    intro b hb
    rcases List.mem_append.mp hb with hb | hb
    · exact h3 b hb
    · have hb' : b = ⟨s.pending, s.textures, s.sdfGamma, s.sdfHalo⟩ := by simpa using hb
      subst hb'
      exact h2

theorem flushR_pending_nil (s : RState) (h : s.pending.length = s.imageCount) :
    (flushR s).pending = [] := by
  unfold flushR
  split <;> rename_i hc
  · rw [← List.length_eq_zero]
    rw [h, hc]
  · rfl

theorem gammaStep_shadeInv (s : RState) (font : RFont) (h : shadeInv s) :
    shadeInv (gammaStep s font) := by
  unfold gammaStep
  split
  · have hf := flushR_shadeInv s h
    have hpend := flushR_pending_nil s h.1
    unfold shadeInv
    refine ⟨?_, ?_, ?_⟩
    · simp [hpend]
    · simp [hpend]
    · exact hf.2.2
  · exact h

theorem addImage_shadeInv (s : RState) (img : Nat) (h : shadeInv s) :
    shadeInv (addImageAsTexture s img) := by
  unfold shadeInv
  rw [addImage_pending, addImage_flushed, addImage_imageCount, addImage_sdfGamma,
    addImage_sdfHalo]
  exact h

theorem processChar_shadeInv (font : RFont) (tid : Int) (s : RState) (cp : GlyphKey)
    (h : shadeInv s) : shadeInv (processChar font tid s cp) := by
  have hs1 : shadeInv (if isFull s then flushR s else s) := by
    split
    · exact flushR_shadeInv s h
    · exact h
  rw [processChar_eq]
  split
  · obtain ⟨h1, h2, h3⟩ := hs1
    unfold shadeInv
    refine ⟨by simp [h1], ?_, h3⟩
    intro q hq
    simp only [List.mem_append, List.mem_singleton] at hq
    rcases hq with hq | rfl
    · exact h2 q hq
    · exact ⟨rfl, rfl⟩
  · exact hs1

theorem fold_shadeInv (font : RFont) (tid : Int) (cps : List GlyphKey) : ∀ s : RState,
    shadeInv s → shadeInv (cps.foldl (processChar font tid) s) := by
  induction cps with
  | nil => intro s h; exact h
  | cons cp rest ih =>
    intro s h
    rw [List.foldl_cons]
    exact ih _ (processChar_shadeInv font tid s cp h)

theorem drawR_shadeInv (s : RState) (font : RFont) (t : JSStr) (h : shadeInv s) :
    shadeInv (drawR s font t) := by
  unfold drawR entryState
  refine fold_shadeInv font _ (jsCodePoints t) _ (addImage_shadeInv _ font.image
    (gammaStep_shadeInv _ font ?_))
  split
  · exact flushR_shadeInv s h
  · exact h

theorem runCmds_shadeInv (cmds : List RCmd) : ∀ s : RState,
    shadeInv s → shadeInv (runCmds s cmds) := by
  induction cmds with
  | nil => intro s h; exact h
  | cons c rest ih =>
    intro s h
    cases c with
    | draw f t => exact ih _ (drawR_shadeInv s f t h)
    | flush => exact ih _ (flushR_shadeInv s h)

theorem initState_shadeInv (m : Nat) : shadeInv (initState m) := by
  unfold shadeInv initState
  simp

/-- The quad's `a_textureIndex` names a slot that is populated with the
quad's own atlas image in the given bound-texture list. -/
def slotOk (texs : List Nat) (q : Quad) : Prop :=
  ∃ n : Nat, q.textureId = (n : Int) ∧ texs.get? n = some q.img

/-- Well-formedness of the texture bookkeeping: `_textureIndex` is the next
free slot, `_textureToIndex` maps the texture in slot `n` to `n`, and
`_images` mirrors `_textures`. -/
def texWf (s : RState) : Prop :=
  s.textureIndex = s.textures.length ∧
    (∀ n tex, s.textures.get? n = some tex → mget s.textureToIndex tex = some n) ∧
    (∀ img, img ∈ s.images ↔ img ∈ s.textures)

/-- All buffered quads name populated slots. -/
def pendingOk (s : RState) : Prop := ∀ q ∈ s.pending, slotOk s.textures q

theorem slotOk_append (texs l : List Nat) (q : Quad) (h : slotOk texs q) :
    slotOk (texs ++ l) q := by
  obtain ⟨n, h1, h2⟩ := h
  refine ⟨n, h1, ?_⟩
  rw [List.get?_append]
  · exact h2
  · exact (List.get?_eq_some.mp h2).1

theorem flushR_texWf (s : RState) (h : texWf s) : texWf (flushR s) := by
  unfold flushR
  split
  · exact h
  · refine ⟨rfl, ?_, ?_⟩
    · intro n tex htex
      simp at htex
    · intro img
      simp

theorem flushR_pendingOk (s : RState) (h : pendingOk s) : pendingOk (flushR s) := by
  unfold flushR
  split
  · exact h
  · intro q hq
    simp at hq

theorem gammaStep_texWf (s : RState) (font : RFont) (h : texWf s) :
    texWf (gammaStep s font) := by
  unfold gammaStep
  split
  · exact flushR_texWf s h
  · exact h

theorem gammaStep_pendingOk (s : RState) (font : RFont) (h : texWf s)
    (hp : pendingOk s) : pendingOk (gammaStep s font) := by
  unfold gammaStep
  split
  · exact flushR_pendingOk s hp
  · exact hp

theorem addImage_textures_cases (s : RState) (img : Nat) :
    (addImageAsTexture s img).textures = s.textures ∨
      (addImageAsTexture s img).textures = s.textures ++ [img] := by
  unfold addImageAsTexture
  split
  · exact Or.inl rfl
  · split
    · exact Or.inl rfl
    · exact Or.inr rfl

theorem addImage_pendingOk (s : RState) (img : Nat) (hp : pendingOk s) :
    pendingOk (addImageAsTexture s img) := by
  intro q hq
  rw [addImage_pending] at hq
  rcases addImage_textures_cases s img with h | h <;> rw [h]
  · exact hp q hq
  · exact slotOk_append _ _ q (hp q hq)

theorem addImage_texWf (s : RState) (img : Nat) (h : texWf s) :
    texWf (addImageAsTexture s img) := by
  obtain ⟨h1, h2, h3⟩ := h
  unfold addImageAsTexture
  split <;> rename_i himg
  · exact ⟨h1, h2, h3⟩
  · split <;> rename_i htex
    · exact ⟨h1, h2, h3⟩
    · refine ⟨by simp [h1], ?_, ?_⟩
      · intro n tex htexn
        by_cases hn : n < s.textures.length
        · rw [List.get?_append hn] at htexn
          have hmem : tex ∈ s.textures := List.get?_mem htexn
          have hne : img ≠ tex := fun he => htex (he ▸ hmem)
          rw [mget_mset_ne _ _ _ _ hne]
          exact h2 n tex htexn
        · have hn' : n = s.textures.length := by
            have hlt : n < (s.textures ++ [img]).length := (List.get?_eq_some.mp htexn).1
            simp at hlt
            omega
          subst hn'
          rw [List.get?_concat_length] at htexn
          obtain rfl : img = tex := by simpa using htexn
          rw [h1]
          exact mget_mset_self _ _ _
      · intro i
        simp only [List.mem_append, List.mem_singleton]
        rw [h3 i]

theorem addImage_mem (s : RState) (img : Nat) (h : texWf s) :
    img ∈ (addImageAsTexture s img).textures := by
  unfold addImageAsTexture
  split <;> rename_i himg
  · exact (h.2.2 img).mp himg
  · split <;> rename_i htex
    · exact htex
    · exact List.mem_append_right _ (by simp)

theorem getTextureId_valid (s : RState) (img : Nat) (hwf : texWf s)
    (hmem : img ∈ s.textures) :
    ∃ n : Nat, getTextureId s img = (n : Int) ∧ s.textures.get? n = some img := by
  obtain ⟨n, hn⟩ := List.mem_iff_get?.mp hmem
  refine ⟨n, ?_, hn⟩
  unfold getTextureId
  rw [hwf.2.1 n img hn]

theorem fold_no_flush (font : RFont) (tid : Int) (cps : List GlyphKey) : ∀ s : RState,
    s.imageCount + cps.countP (fun cp => present font cp) < s.maxImages →
    s.textures.length < s.maxTextures →
    (cps.foldl (processChar font tid) s).textures = s.textures ∧
      (cps.foldl (processChar font tid) s).pending =
        s.pending ++ List.replicate (cps.countP (fun cp => present font cp))
          ⟨tid, font.image, s.sdfGamma, s.sdfHalo⟩ ∧
      (cps.foldl (processChar font tid) s).imageCount =
        s.imageCount + cps.countP (fun cp => present font cp) ∧
      (cps.foldl (processChar font tid) s).textureToIndex = s.textureToIndex ∧
      (cps.foldl (processChar font tid) s).textureIndex = s.textureIndex ∧
      (cps.foldl (processChar font tid) s).images = s.images := by
  induction cps with
  | nil =>
    intro s _ _
    simp
  | cons cp rest ih =>
    intro s hcap htex
    have hnf : isFull s = false := by
      unfold isFull
      simp only [Bool.or_eq_false_iff, decide_eq_false_iff_not, not_le]
      constructor
      · have : (0 : Nat) ≤ (cp :: rest).countP (fun cp => present font cp) := Nat.zero_le _
        omega
      · exact htex
    rw [List.foldl_cons]
    by_cases hpres : present font cp = true
    · have hstep : processChar font tid s cp =
          { s with
            imageCount := s.imageCount + 1,
            vertexIndex := s.vertexIndex + 36,
            pending := s.pending ++ [⟨tid, font.image, s.sdfGamma, s.sdfHalo⟩] } := by
        rw [processChar_eq, if_pos hpres, hnf]
        simp
      have hcnt : (cp :: rest).countP (fun cp => present font cp) =
          rest.countP (fun cp => present font cp) + 1 := by
        rw [List.countP_cons]
        simp [hpres]
      rw [hstep]
      have := ih { s with
          imageCount := s.imageCount + 1,
          vertexIndex := s.vertexIndex + 36,
          pending := s.pending ++ [⟨tid, font.image, s.sdfGamma, s.sdfHalo⟩] }
        (by show s.imageCount + 1 + _ < s.maxImages; omega) (htex)
      obtain ⟨t1, t2, t3, t4, t5, t6⟩ := this
      refine ⟨t1, ?_, by rw [t3, hcnt]; show s.imageCount + 1 + _ = _; omega, t4, t5, t6⟩
      rw [t2, hcnt]
      show s.pending ++ [_] ++ _ = _
      rw [List.append_assoc]
      rw [List.replicate_succ]
      rfl
    · have hstep : processChar font tid s cp = s := by
        rw [processChar_eq, if_neg hpres, hnf]
        simp
      have hcnt : (cp :: rest).countP (fun cp => present font cp) =
          rest.countP (fun cp => present font cp) := by
        rw [List.countP_cons]
        simp [hpres]
      rw [hstep, hcnt]
      exact ih s (by omega) htex

theorem drawR_slot_valid (s : RState) (font : RFont) (t : JSStr)
    (hwf : texWf s) (hp : pendingOk s)
    (hcap : s.imageCount + (jsCodePoints t).countP (fun cp => present font cp) <
      s.maxImages)
    (htex : s.textures.length + 1 < s.maxTextures) :
    pendingOk (drawR s font t) ∧ texWf (drawR s font t) := by
  have hwf1 : texWf (if isFull s then flushR s else s) := by
    split
    · exact flushR_texWf s hwf
    · exact hwf
  have hp1 : pendingOk (if isFull s then flushR s else s) := by
    split
    · exact flushR_pendingOk s hp
    · exact hp
  have hc1 : (if isFull s then flushR s else s).imageCount ≤ s.imageCount := by
    split
    · rw [flushR_imageCount]; exact Nat.zero_le _
    · exact le_refl _
  have hl1 : (if isFull s then flushR s else s).textures.length ≤ s.textures.length := by
    split
    · exact flushR_textures_le s
    · exact le_refl _
  have hst1 : (if isFull s then flushR s else s).maxImages = s.maxImages ∧
      (if isFull s then flushR s else s).maxTextures = s.maxTextures := by
    split <;> simp
  have hwf2 := gammaStep_texWf _ font hwf1
  have hp2 := gammaStep_pendingOk _ font hwf1 hp1
  have hc2 := gammaStep_count_le (if isFull s then flushR s else s) font
  have hl2 := gammaStep_textures_le (if isFull s then flushR s else s) font
  have hst2 := gammaStep_statics (if isFull s then flushR s else s) font
  have hwf3 := addImage_texWf _ font.image hwf2
  have hp3 := addImage_pendingOk _ font.image hp2
  have hmem3 := addImage_mem _ font.image hwf2
  obtain ⟨n, htid, hget⟩ := getTextureId_valid (entryState s font) font.image hwf3 hmem3
  have hcap3 : (entryState s font).imageCount +
      (jsCodePoints t).countP (fun cp => present font cp) <
      (entryState s font).maxImages := by
    unfold entryState
    rw [addImage_imageCount, addImage_maxImages, hst2.1, hst1.1]
    have := le_trans hc2 hc1
    omega
  have htex3 : (entryState s font).textures.length < (entryState s font).maxTextures := by
    unfold entryState
    rw [addImage_maxTextures, hst2.2, hst1.2]
    refine lt_of_le_of_lt (addImage_textures_le _ font.image) ?_
    have := le_trans hl2 hl1
    omega
  obtain ⟨t1, t2, t3, t4, t5, t6⟩ :=
    fold_no_flush font (getTextureId (entryState s font) font.image) (jsCodePoints t)
      (entryState s font) hcap3 htex3
  constructor
  · intro q hq
    unfold drawR at hq ⊢
    rw [t2] at hq
    rw [t1]
    rcases List.mem_append.mp hq with hq | hq
    · exact hp3 q hq
    · obtain rfl := List.eq_of_mem_replicate hq
      exact ⟨n, htid, hget⟩
  · unfold drawR
    unfold texWf
    rw [t1, t4, t5, t6]
    exact hwf3

theorem flushR_batch_slots (s : RState) (hp : pendingOk s) :
    ∀ b ∈ (flushR s).flushed, b ∈ s.flushed ∨ ∀ q ∈ b.quads, slotOk b.textures q := by
  unfold flushR
  split
  · intro b hb
    exact Or.inl hb
  · intro b hb
    simp only at hb
    rcases List.mem_append.mp hb with hb | hb
    · exact Or.inl hb
    · obtain rfl : b = ⟨s.pending, s.textures, s.sdfGamma, s.sdfHalo⟩ := by simpa using hb
      exact Or.inr hp

/-- C8 (corrected): every batch a `flush` submits is uniform in its shading
parameters — all quads of one submission carry the gamma/halo pushed as that
submission's uniforms — for **any** call sequence; and every quad's texture
slot refers to the slot populated with its atlas image **provided the draw
calls stay within capacity** (no automatic mid-string flush: buffered quads
plus the text's present glyphs below `_maxImages`, texture slots below the
limit).  The proviso is forced by `stale_slot_after_midstring_flush`: a
mid-string flush clears the texture tables while the rest of the string
keeps the texture index computed before the loop, so later quads of that
very draw call reference a slot that is no longer populated. -/
theorem flush_shading_uniform_and_slots_valid :
    (∀ (m : Nat) (cmds : List RCmd),
      ∀ b ∈ (runCmds (initState m) cmds).flushed,
        ∀ q ∈ b.quads, q.gamma = b.gamma ∧ q.halo = b.halo) ∧
      (∀ s : RState, pendingOk s →
        ∀ b ∈ (flushR s).flushed,
          b ∈ s.flushed ∨ ∀ q ∈ b.quads, slotOk b.textures q) ∧
      (∀ (s : RState) (font : RFont) (t : JSStr),
        texWf s → pendingOk s →
        s.imageCount + (jsCodePoints t).countP (fun cp => present font cp) <
          s.maxImages →
        s.textures.length + 1 < s.maxTextures →
        pendingOk (drawR s font t) ∧ texWf (drawR s font t)) :=
  ⟨fun m cmds => (runCmds_shadeInv cmds (initState m) (initState_shadeInv m)).2.2,
   flushR_batch_slots,
   drawR_slot_valid⟩

/-- C8 witness: one in-capacity draw of a present glyph from the fresh
renderer keeps every buffered quad's slot populated. -/
theorem flush_shading_uniform_and_slots_valid_witness :
    ((initState 8).imageCount + (jsCodePoints [97]).countP
        (fun cp => present (presentFont 1 97) cp) < (initState 8).maxImages ∧
      (initState 8).textures.length + 1 < (initState 8).maxTextures) ∧
      pendingOk (drawR (initState 8) (presentFont 1 97) [97]) ∧
      texWf (drawR (initState 8) (presentFont 1 97) [97]) :=
  ⟨⟨by decide, by decide⟩,
   flush_shading_uniform_and_slots_valid.2.2 (initState 8) (presentFont 1 97) [97]
     (by
       refine ⟨rfl, ?_, ?_⟩
       · intro n tex h
         simp [initState] at h
       · intro img
         simp [initState])
     (by
       intro q hq
       simp [initState] at hq)
     (by decide) (by decide)⟩

/-- Seven draws with present glyphs on seven distinct images, then a draw of
two present glyphs on an eighth image: registering the eighth image fills
the texture pool, so the first character of the last draw triggers a
mid-string flush. -/
def c8cmds : List RCmd :=
  ((List.range 7).map (fun i => RCmd.draw (presentFont (i + 1) (97 + i)) [97 + i])) ++
    [RCmd.draw (presentFont 8 120) [120, 120]]

set_option maxRecDepth 8000 in
/-- C8 counterexample: after `c8cmds` on a renderer with `maxTextures = 8`,
the mid-string flush inside the last draw call cleared the texture tables,
but both quads of that call still carry the texture index 7 computed before
the loop: the buffer holds two quads naming slot 7 while **no** texture is
bound, and the batch the next flush submits pairs those quads with an empty
texture list — slot 7 is not populated with their atlas image (image 8). -/
theorem stale_slot_after_midstring_flush :
    ((runCmds (initState 8) c8cmds).pending.map (fun q => (q.textureId, q.img)) =
        [(7, 8), (7, 8)]) ∧
      (runCmds (initState 8) c8cmds).textures = [] ∧
      ((flushR (runCmds (initState 8) c8cmds)).flushed.getLast?).map
          (fun b => (b.quads.map (fun q => (q.textureId, q.img)), b.textures)) =
        some ([(7, 8), (7, 8)], []) ∧
      ¬slotOk [] ⟨7, 8, fontGamma 16, fontHalo⟩ := by
  refine ⟨by decide, by decide, by decide, ?_⟩
  rintro ⟨n, -, hget⟩
  simp at hget

end SDFText
